import Mathlib

/-!
Verification of the Minesweeper AI inference engine (`minesweeper.py`).

The embedding below mirrors the Python source:
* `Sentence` is the logical statement `{cells} = count`; Python's `int` count
  is modelled as `ℤ` (it may go negative, exactly as in the source, which has
  no assertion guarding the decrement in `mark_mine`).
* `AIState` is the `MinesweeperAI` object state (`height`, `width`,
  `moves_made`, `mines`, `safes`, `knowledge`).
* Python's unbounded `while` loops (`update_safes_and_mines`,
  `generate_inferences`, the outer propagation loop of `add_knowledge`, and
  the rejection-sampling loop of `make_random_move`) are modelled with an
  explicit fuel parameter; `none` means the fuel ran out, `some` is the value
  the Python code returns.
* A Python `for x in someSet:` loop is modelled by `Multiset.foldl` over the
  set's underlying multiset: the iteration order of a Python set is
  unspecified, and each folded step is proved right-commutative, so the fold
  is well-defined and captures every iteration order at once.
-/

namespace Minesweeper

/-- A board cell `(row, col)`; Python tuples of ints. -/
abbrev Cell := ℤ × ℤ

/-- `Sentence`: a set of cells together with the number of mines among them.
Python `__eq__` compares both fields, which is structure equality here. -/
structure Sentence where
  cells : Finset Cell
  count : ℤ
  deriving DecidableEq

/-- `Sentence.known_mines`: `self.cells` if `len(self.cells) == self.count`,
else the empty set.  Pure: the Python method does not mutate `self`. -/
def Sentence.known_mines (s : Sentence) : Finset Cell :=
  if (s.cells.card : ℤ) = s.count then s.cells else ∅

/-- `Sentence.known_safes`: `self.cells` if `self.count == 0`, else the empty
set.  Pure: the Python method does not mutate `self`. -/
def Sentence.known_safes (s : Sentence) : Finset Cell :=
  if s.count = 0 then s.cells else ∅

/-- `Sentence.mark_mine`: if the cell is present, remove it and decrement
`count` (unconditionally; the source has no assertion). -/
def Sentence.mark_mine (s : Sentence) (c : Cell) : Sentence :=
  if c ∈ s.cells then ⟨s.cells.erase c, s.count - 1⟩ else s

/-- `Sentence.mark_safe`: if the cell is present, remove it; `count` kept. -/
def Sentence.mark_safe (s : Sentence) (c : Cell) : Sentence :=
  if c ∈ s.cells then ⟨s.cells.erase c, s.count⟩ else s

/-- `Sentence.get_inference` (spec name `subset_infer`): if `other.cells` is a
subset of `self.cells`, the new sentence over the difference; else `None`. -/
def Sentence.get_inference (s other : Sentence) : Option Sentence :=
  if other.cells ⊆ s.cells then
    some ⟨s.cells \ other.cells, s.count - other.count⟩
  else none

theorem Sentence.mark_safe_eq (s : Sentence) (c : Cell) :
    s.mark_safe c = ⟨s.cells.erase c, s.count⟩ := by
  unfold Sentence.mark_safe
  split
  · rfl
  · rw [Finset.erase_eq_of_not_mem (by assumption)]

theorem Sentence.mark_mine_eq (s : Sentence) (c : Cell) :
    s.mark_mine c = ⟨s.cells.erase c, s.count - if c ∈ s.cells then 1 else 0⟩ := by
  unfold Sentence.mark_mine
  split
  · rename_i h
    simp [h]
  · rename_i h
    rw [Finset.erase_eq_of_not_mem h]
    simp [h]

instance : RightCommutative Sentence.mark_safe := by
  refine ⟨fun s a b => ?_⟩
  simp only [Sentence.mark_safe_eq]
  rw [Finset.erase_right_comm]

instance : RightCommutative Sentence.mark_mine := by
  refine ⟨fun s a b => ?_⟩
  simp only [Sentence.mark_mine_eq]
  refine congrArg₂ Sentence.mk (Finset.erase_right_comm) ?_
  rcases eq_or_ne a b with rfl | hab
  · rfl
  · have h1 : (if a ∈ s.cells.erase b then (1 : ℤ) else 0) =
        (if a ∈ s.cells then (1 : ℤ) else 0) := by
      simp [Finset.mem_erase, hab]
    have h2 : (if b ∈ s.cells.erase a then (1 : ℤ) else 0) =
        (if b ∈ s.cells then (1 : ℤ) else 0) := by
      simp [Finset.mem_erase, Ne.symm hab]
    rw [h1, h2, sub_sub, sub_sub, add_comm]

/-- The guard `if neigh in self.mines: new_sentence.mark_mine(neigh)` from the
preamble of `add_knowledge`, as a fold step over the neighbor set. -/
def mineStep (m : Finset Cell) (t : Sentence) (n : Cell) : Sentence :=
  if n ∈ m then t.mark_mine n else t

instance (m : Finset Cell) : RightCommutative (mineStep m) := by
  refine ⟨fun s a b => ?_⟩
  unfold mineStep
  split <;> split <;> try rfl
  exact (inferInstance : RightCommutative Sentence.mark_mine).right_comm s a b

/-- The `MinesweeperAI` object state, fields in `__init__` order. -/
structure AIState where
  height : ℤ
  width : ℤ
  moves_made : Finset Cell
  mines : Finset Cell
  safes : Finset Cell
  knowledge : List Sentence
  deriving DecidableEq

/-- `MinesweeperAI.mark_mine`: add the cell to `mines` and cascade
`Sentence.mark_mine` over every sentence of the knowledge base. -/
def AIState.mark_mine (ai : AIState) (c : Cell) : AIState :=
  { ai with mines := insert c ai.mines,
            knowledge := ai.knowledge.map (fun s => s.mark_mine c) }

/-- `MinesweeperAI.mark_safe`: add the cell to `safes` and cascade
`Sentence.mark_safe` over every sentence of the knowledge base. -/
def AIState.mark_safe (ai : AIState) (c : Cell) : AIState :=
  { ai with safes := insert c ai.safes,
            knowledge := ai.knowledge.map (fun s => s.mark_safe c) }

instance : RightCommutative AIState.mark_safe := by
  refine ⟨fun ai a b => ?_⟩
  unfold AIState.mark_safe
  simp only [List.map_map]
  refine congrArg₂ (fun x y => AIState.mk ai.height ai.width ai.moves_made ai.mines x y)
    (Finset.Insert.comm b a ai.safes) ?_
  refine List.map_congr_left (fun s _ => ?_)
  exact (inferInstance : RightCommutative Sentence.mark_safe).right_comm s a b

instance : RightCommutative AIState.mark_mine := by
  refine ⟨fun ai a b => ?_⟩
  unfold AIState.mark_mine
  simp only [List.map_map]
  refine congrArg₂ (fun x y => AIState.mk ai.height ai.width ai.moves_made x ai.safes y)
    (Finset.Insert.comm b a ai.mines) ?_
  refine List.map_congr_left (fun s _ => ?_)
  exact (inferInstance : RightCommutative Sentence.mark_mine).right_comm s a b

/-- `get_nearby_cells` (closure inside `add_knowledge`): the 3×3 block around
`cell`, skipping `cell` itself, negative coordinates, and coordinates equal to
`height` / `width` — exactly the Python guard. -/
def get_nearby_cells (h w : ℤ) (cell : Cell) : Finset Cell :=
  ([(cell.1 - 1, cell.2 - 1), (cell.1 - 1, cell.2), (cell.1 - 1, cell.2 + 1),
    (cell.1, cell.2 - 1), (cell.1, cell.2), (cell.1, cell.2 + 1),
    (cell.1 + 1, cell.2 - 1), (cell.1 + 1, cell.2), (cell.1 + 1, cell.2 + 1)]
      : List Cell).toFinset.filter
    (fun p => ¬(p = cell ∨ p.1 < 0 ∨ p.2 < 0 ∨ p.1 = h ∨ p.2 = w))

/-- The `new_sentence` built by the preamble of `add_knowledge`: the neighbor
sentence, with every neighbor already in `mines` removed via
`Sentence.mark_mine`, then `safes` and `moves_made` stripped. -/
def preSentence (ai : AIState) (cell : Cell) (count : ℤ) : Sentence :=
  let neighbors := get_nearby_cells ai.height ai.width cell
  let s1 := neighbors.val.foldl (mineStep ai.mines) ⟨neighbors, count⟩
  let s2 : Sentence := ⟨s1.cells \ ai.safes, s1.count⟩
  ⟨s2.cells \ ai.moves_made, s2.count⟩

/-- The sentence-building preamble of `add_knowledge`, before the propagation
loop: append the `new_sentence` to `knowledge`, record the move, and
`mark_safe` the probed cell. -/
def preState (ai : AIState) (cell : Cell) (count : ℤ) : AIState :=
  let ai1 : AIState := { ai with
    knowledge := ai.knowledge ++ [preSentence ai cell count],
    moves_made := insert cell ai.moves_made }
  ai1.mark_safe cell

/-- The `new_safes` accumulator of one `update_safes_and_mines` iteration:
union of `known_safes()` over the knowledge base. -/
def newSafes (ai : AIState) : Finset Cell :=
  ai.knowledge.foldl (fun acc s => acc ∪ s.known_safes) ∅

/-- The `new_mines` accumulator of one `update_safes_and_mines` iteration:
union of `known_mines()` over the knowledge base. -/
def newMines (ai : AIState) : Finset Cell :=
  ai.knowledge.foldl (fun acc s => acc ∪ s.known_mines) ∅

/-- One iteration body of `update_safes_and_mines`: apply `mark_safe` to every
newly deduced safe cell, `mark_mine` to every newly deduced mine, and drop the
sentences whose cell set became empty. -/
def usmStep (ai : AIState) : AIState :=
  let ai1 := (newSafes ai).val.foldl AIState.mark_safe ai
  let ai2 := (newMines ai).val.foldl AIState.mark_mine ai1
  { ai2 with knowledge := ai2.knowledge.filter (fun s => 0 < s.cells.card) }

/-- The `while True` loop of `update_safes_and_mines`: `upd` is the Python
`update` flag; the loop exits (returning the flag) on the first iteration that
deduces nothing new.  `none` = fuel exhausted. -/
def usmLoop : ℕ → AIState → Bool → Option (AIState × Bool)
  | 0, _, _ => none
  | n + 1, ai, upd =>
    if newSafes ai = ∅ ∧ newMines ai = ∅ then some (usmStep ai, upd)
    else usmLoop n (usmStep ai) true

/-- The `new_inferences` list built by one pass of `generate_inferences`: for
every ordered pair of value-distinct sentences, collect the subset inference
unless it already occurs in the accumulator or in the knowledge base. -/
def giNew (k : List Sentence) : List Sentence :=
  k.foldl (fun acc s1 =>
    k.foldl (fun acc s2 =>
      if s1 = s2 then acc
      else
        match s1.get_inference s2 with
        | none => acc
        | some inf => if inf ∈ acc ∨ inf ∈ k then acc else acc ++ [inf]) acc) []

/-- One iteration body of `generate_inferences`: append the freshly generated
inferences to the knowledge base. -/
def giStep (ai : AIState) : AIState :=
  { ai with knowledge := ai.knowledge ++ giNew ai.knowledge }

/-- The `while True` loop of `generate_inferences`: `gen` is the Python
`generated` flag; the loop exits once a pass generates no new inference. -/
def giLoop : ℕ → AIState → Bool → Option (AIState × Bool)
  | 0, _, _ => none
  | n + 1, ai, gen =>
    if giNew ai.knowledge = [] then some (giStep ai, gen)
    else giLoop n (giStep ai) true

/-- The outer propagation loop of `add_knowledge`: alternate
`update_safes_and_mines` and `generate_inferences` until neither reports
progress. -/
def outerLoop : ℕ → AIState → Option AIState
  | 0, _ => none
  | n + 1, ai =>
    match usmLoop (n + 1) ai false with
    | none => none
    | some (ai1, ok1) =>
      match giLoop (n + 1) ai1 false with
      | none => none
      | some (ai2, ok2) =>
        if ok1 || ok2 then outerLoop n ai2 else some ai2

/-- The final duplicate-removal pass of `add_knowledge`: keep the first
occurrence of each sentence value. -/
def dedupKnowledge (l : List Sentence) : List Sentence :=
  l.foldl (fun acc s => if s ∈ acc then acc else acc ++ [s]) []

/-- `MinesweeperAI.add_knowledge`, with fuel for the propagation fixpoint. -/
def add_knowledge (n : ℕ) (ai : AIState) (cell : Cell) (count : ℤ) :
    Option AIState :=
  match outerLoop n (preState ai cell count) with
  | none => none
  | some ai2 => some { ai2 with knowledge := dedupKnowledge ai2.knowledge }

/-- `MinesweeperAI.make_safe_move`: computes `safes - moves_made` on a copy,
pops an arbitrary element (`pick` models the hash-order choice of `set.pop`),
and returns it together with the object state after the call. -/
def make_safe_move (pick : Finset Cell → Cell) (ai : AIState) :
    Option Cell × AIState :=
  let safe_moves := ai.safes \ ai.moves_made
  if safe_moves.card = 0 then (none, ai) else (some (pick safe_moves), ai)

/-- The rejection-sampling loop of `make_random_move`: `draws i` is the `i`-th
pair produced by `random.randint`; redraw while the cell was already played or
is a known mine. -/
def randLoop (ai : AIState) (draws : ℕ → Cell) : ℕ → ℕ → Option Cell
  | 0, _ => none
  | n + 1, i =>
    if draws i ∈ ai.moves_made ∨ draws i ∈ ai.mines then
      randLoop ai draws n (i + 1)
    else some (draws i)

/-- `MinesweeperAI.make_random_move` (spec name `choose_random_move`):
`some none` is Python's `None`, `some (some c)` a returned cell, `none` = the
rejection loop still running when the fuel ran out. -/
def make_random_move (ai : AIState) (draws : ℕ → Cell) (fuel : ℕ) :
    Option (Option Cell) :=
  if ((ai.moves_made.card + ai.mines.card : ℤ)) = ai.height * ai.width then
    some none
  else
    match randLoop ai draws fuel 0 with
    | none => none
    | some c => some (some c)

/-- A sentence is consistent with a ground-truth mine set `M` when its count
is exactly the number of its cells lying in `M`. -/
def ConsistentS (M : Finset Cell) (s : Sentence) : Prop :=
  s.count = ((s.cells ∩ M).card : ℤ)

/-- The engine state is consistent with mine set `M`: every sentence counts
its `M`-cells, flagged mines are real, safe-marked and played cells are not
mines, and (spec §3 invariant) proven cells are pruned from all sentences. -/
def ConsistentAI (M : Finset Cell) (ai : AIState) : Prop :=
  (∀ s ∈ ai.knowledge, ConsistentS M s) ∧
  ai.mines ⊆ M ∧
  (∀ c ∈ ai.safes, c ∉ M) ∧
  (∀ c ∈ ai.moves_made, c ∉ M) ∧
  (∀ s ∈ ai.knowledge, ∀ c ∈ s.cells, c ∉ ai.safes ∧ c ∉ ai.mines)

/-- The pruning invariant alone (claim C4): no proven cell occurs in any live
sentence. -/
def PrunedKB (ai : AIState) : Prop :=
  ∀ s ∈ ai.knowledge, ∀ c ∈ s.cells, c ∉ ai.safes ∧ c ∉ ai.mines

/-- Bounds invariant for one sentence: `0 ≤ count ≤ |cells|`. -/
def SentBounds (s : Sentence) : Prop :=
  0 ≤ s.count ∧ s.count ≤ (s.cells.card : ℤ)

/-- Bounds invariant for the whole knowledge base. -/
def KBBounds (ai : AIState) : Prop :=
  ∀ s ∈ ai.knowledge, SentBounds s

instance (M : Finset Cell) (s : Sentence) : Decidable (ConsistentS M s) := by
  unfold ConsistentS; infer_instance

instance (M : Finset Cell) (ai : AIState) : Decidable (ConsistentAI M ai) := by
  unfold ConsistentAI ConsistentS; infer_instance

instance (ai : AIState) : Decidable (PrunedKB ai) := by
  unfold PrunedKB; infer_instance

instance (s : Sentence) : Decidable (SentBounds s) := by
  unfold SentBounds; infer_instance

instance (ai : AIState) : Decidable (KBBounds ai) := by
  unfold KBBounds SentBounds; infer_instance

/-- The union of all cells mentioned in the knowledge base; a fixed universe
for the termination argument. -/
def bigU (ai : AIState) : Finset Cell :=
  ai.knowledge.foldl (fun acc s => acc ∪ s.cells) ∅

/-- The set of distinct cell-sets occurring in a knowledge base. -/
def kcells (k : List Sentence) : Finset (Finset Cell) :=
  (k.map (fun s => s.cells)).toFinset

/-- Total number of cell occurrences over the knowledge base; the
`update_safes_and_mines` loop strictly shrinks it on every productive
iteration. -/
def cellsSum (ai : AIState) : ℕ :=
  (ai.knowledge.map (fun s => s.cells.card)).sum

/-- Number of universe cells not yet proven safe or mine. -/
def deficit (U : Finset Cell) (ai : AIState) : ℕ :=
  (U \ (ai.safes ∪ ai.mines)).card

/-- Number of subsets of the universe not yet realised as a sentence's cell
set; the `generate_inferences` loop strictly shrinks it on every productive
pass. -/
def missing (U : Finset Cell) (k : List Sentence) : ℕ :=
  (U.powerset \ kcells k).card

/-- No sentence of the knowledge base has an empty cell set. -/
def NoEmptyKB (ai : AIState) : Prop :=
  ∀ s ∈ ai.knowledge, 0 < s.cells.card

instance (ai : AIState) : Decidable (NoEmptyKB ai) := by
  unfold NoEmptyKB; infer_instance

/-- `1` when some sentence has an empty cell set (this can only happen before
the first `update_safes_and_mines` filter), `0` afterwards. -/
def eInd (ai : AIState) : ℕ :=
  if NoEmptyKB ai then 0 else 1

/-- The combined lexicographic-style measure for the outer propagation loop. -/
def omeasure (U : Finset Cell) (ai : AIState) : ℕ :=
  (U.powerset.card + 1) * deficit U ai + missing U ai.knowledge + eInd ai

/-- Combined invariant used by the termination proof: consistency with the
mine assignment `M` plus containment of every sentence in the universe `U`. -/
def InvU (M U : Finset Cell) (ai : AIState) : Prop :=
  ConsistentAI M ai ∧ ∀ s ∈ ai.knowledge, s.cells ⊆ U

theorem randLoop_some (ai : AIState) (draws : ℕ → Cell) :
    ∀ n i c, randLoop ai draws n i = some c →
      (∃ j, c = draws j) ∧ c ∉ ai.moves_made ∧ c ∉ ai.mines := by
  intro n
  induction n with
  | zero => intro i c h; simp [randLoop] at h
  | succ n ih =>
    intro i c h
    unfold randLoop at h
    split at h
    · exact ih (i + 1) c h
    · rename_i hcond
      push_neg at hcond
      cases h
      exact ⟨⟨i, rfl⟩, hcond.1, hcond.2⟩

theorem mem_foldl_union {β : Type} (f : β → Finset Cell) :
    ∀ (k : List β) (A : Finset Cell) (c : Cell),
      c ∈ k.foldl (fun acc s => acc ∪ f s) A ↔ c ∈ A ∨ ∃ s ∈ k, c ∈ f s := by
  intro k
  induction k with
  | nil => simp
  | cons a l ih =>
    intro A c
    rw [List.foldl_cons, ih]
    simp only [Finset.mem_union, List.mem_cons]
    constructor
    · rintro (⟨h | h⟩ | ⟨s, hs, hc⟩)
      · exact Or.inl h
      · exact Or.inr ⟨a, Or.inl rfl, h⟩
      · exact Or.inr ⟨s, Or.inr hs, hc⟩
    · rintro (h | ⟨s, rfl | hs, hc⟩)
      · exact Or.inl (Or.inl h)
      · exact Or.inl (Or.inr hc)
      · exact Or.inr ⟨s, hs, hc⟩

theorem mem_newSafes {ai : AIState} {c : Cell} :
    c ∈ newSafes ai ↔ ∃ s ∈ ai.knowledge, c ∈ s.known_safes := by
  unfold newSafes
  rw [mem_foldl_union]
  simp

theorem mem_newMines {ai : AIState} {c : Cell} :
    c ∈ newMines ai ↔ ∃ s ∈ ai.knowledge, c ∈ s.known_mines := by
  unfold newMines
  rw [mem_foldl_union]
  simp

theorem mem_bigU {ai : AIState} {c : Cell} :
    c ∈ bigU ai ↔ ∃ s ∈ ai.knowledge, c ∈ s.cells := by
  unfold bigU
  rw [mem_foldl_union]
  simp

theorem subset_bigU {ai : AIState} : ∀ s ∈ ai.knowledge, s.cells ⊆ bigU ai :=
  fun s hs _ hc => mem_bigU.2 ⟨s, hs, hc⟩

theorem mem_known_safes {s : Sentence} {c : Cell} :
    c ∈ s.known_safes ↔ s.count = 0 ∧ c ∈ s.cells := by
  unfold Sentence.known_safes
  split <;> simp [*]

theorem mem_known_mines {s : Sentence} {c : Cell} :
    c ∈ s.known_mines ↔ (s.cells.card : ℤ) = s.count ∧ c ∈ s.cells := by
  unfold Sentence.known_mines
  split <;> simp [*]

theorem mark_safe_cells (s : Sentence) (c : Cell) :
    (s.mark_safe c).cells = s.cells.erase c := by
  rw [Sentence.mark_safe_eq]

theorem mark_mine_cells (s : Sentence) (c : Cell) :
    (s.mark_mine c).cells = s.cells.erase c := by
  rw [Sentence.mark_mine_eq]

theorem erase_sdiff_eq (s X : Finset Cell) (a : Cell) :
    (s.erase a) \ X = s \ insert a X := by
  ext c
  simp only [Finset.mem_sdiff, Finset.mem_erase, Finset.mem_insert]
  tauto

theorem consistentS_mark_safe {M : Finset Cell} {s : Sentence} {c : Cell}
    (hc : c ∉ M) (hs : ConsistentS M s) : ConsistentS M (s.mark_safe c) := by
  rw [Sentence.mark_safe_eq]
  unfold ConsistentS at *
  simp only
  rw [Finset.erase_inter, Finset.erase_eq_of_not_mem
    (fun hmem => hc (Finset.mem_inter.1 hmem).2)]
  exact hs

theorem consistentS_mark_mine {M : Finset Cell} {s : Sentence} {c : Cell}
    (hc : c ∈ M) (hs : ConsistentS M s) : ConsistentS M (s.mark_mine c) := by
  unfold Sentence.mark_mine
  split
  · rename_i h
    have hmem : c ∈ s.cells ∩ M := Finset.mem_inter.2 ⟨h, hc⟩
    unfold ConsistentS at *
    simp only
    rw [Finset.erase_inter, Finset.card_erase_of_mem hmem,
      Nat.cast_sub (Finset.card_pos.2 ⟨c, hmem⟩), hs]
    norm_num
  · exact hs

theorem consistentS_mineStep {M mi : Finset Cell} {s : Sentence} {c : Cell}
    (hmi : mi ⊆ M) (hs : ConsistentS M s) : ConsistentS M (mineStep mi s c) := by
  unfold mineStep
  split
  · exact consistentS_mark_mine (hmi (by assumption)) hs
  · exact hs

theorem consistentS_sdiff {M X : Finset Cell} {s : Sentence}
    (hX : ∀ c ∈ X, c ∉ M) (hs : ConsistentS M s) :
    ConsistentS M ⟨s.cells \ X, s.count⟩ := by
  unfold ConsistentS at *
  simp only
  have h : (s.cells \ X) ∩ M = s.cells ∩ M := by
    ext c
    simp only [Finset.mem_inter, Finset.mem_sdiff]
    constructor
    · rintro ⟨⟨h1, -⟩, h2⟩
      exact ⟨h1, h2⟩
    · rintro ⟨h1, h2⟩
      exact ⟨⟨h1, fun hx => hX c hx h2⟩, h2⟩
  rw [h]
  exact hs

theorem consistentS_bounds {M : Finset Cell} {s : Sentence}
    (hs : ConsistentS M s) : SentBounds s := by
  unfold ConsistentS at hs
  constructor
  · rw [hs]
    exact_mod_cast Nat.zero_le _
  · rw [hs]
    exact_mod_cast Finset.card_le_card Finset.inter_subset_left

theorem get_inference_facts {s1 s2 r : Sentence}
    (h : s1.get_inference s2 = some r) :
    s2.cells ⊆ s1.cells ∧ r.cells = s1.cells \ s2.cells ∧
      r.count = s1.count - s2.count := by
  unfold Sentence.get_inference at h
  split at h
  · cases h
    exact ⟨by assumption, rfl, rfl⟩
  · cases h

theorem get_inference_consistent {M : Finset Cell} {s1 s2 r : Sentence}
    (h1 : ConsistentS M s1) (h2 : ConsistentS M s2)
    (h : s1.get_inference s2 = some r) : ConsistentS M r := by
  obtain ⟨hsub, hc, hn⟩ := get_inference_facts h
  unfold ConsistentS at *
  have hset : (s1.cells \ s2.cells) ∩ M = (s1.cells ∩ M) \ (s2.cells ∩ M) := by
    ext c
    simp only [Finset.mem_inter, Finset.mem_sdiff]
    tauto
  have hsub2 : s2.cells ∩ M ⊆ s1.cells ∩ M :=
    Finset.inter_subset_inter hsub (le_refl M)
  rw [hn, hc, hset, Finset.card_sdiff hsub2,
    Nat.cast_sub (Finset.card_le_card hsub2), h1, h2]

theorem sfold_mark_safe (m : Multiset Cell) :
    ∀ s : Sentence, m.foldl Sentence.mark_safe s =
      ⟨s.cells \ m.toFinset, s.count⟩ := by
  induction m using Multiset.induction_on with
  | empty =>
    intro s
    simp only [Multiset.foldl_zero, Multiset.toFinset_zero, Finset.sdiff_empty]
  | cons a m ih =>
    intro s
    rw [Multiset.foldl_cons, ih, Sentence.mark_safe_eq]
    simp only
    rw [Multiset.toFinset_cons, erase_sdiff_eq]

theorem sfold_mark_mine_cells (m : Multiset Cell) :
    ∀ s : Sentence, (m.foldl Sentence.mark_mine s).cells =
      s.cells \ m.toFinset := by
  induction m using Multiset.induction_on with
  | empty =>
    intro s
    simp only [Multiset.foldl_zero, Multiset.toFinset_zero, Finset.sdiff_empty]
  | cons a m ih =>
    intro s
    rw [Multiset.foldl_cons, ih, mark_mine_cells,
      Multiset.toFinset_cons, erase_sdiff_eq]

theorem sfold_mark_mine_consistent {M : Finset Cell} (m : Multiset Cell)
    (hm : ∀ c ∈ m, c ∈ M) :
    ∀ s : Sentence, ConsistentS M s →
      ConsistentS M (m.foldl Sentence.mark_mine s) := by
  induction m using Multiset.induction_on with
  | empty =>
    intro s hs
    simpa using hs
  | cons a m ih =>
    intro s hs
    rw [Multiset.foldl_cons]
    exact ih (fun c hc => hm c (Multiset.mem_cons_of_mem hc)) _
      (consistentS_mark_mine (hm a (Multiset.mem_cons_self a m)) hs)

theorem sfold_mineStep_consistent {M mi : Finset Cell} (hmi : mi ⊆ M)
    (m : Multiset Cell) :
    ∀ s : Sentence, ConsistentS M s →
      ConsistentS M (m.foldl (mineStep mi) s) := by
  induction m using Multiset.induction_on with
  | empty =>
    intro s hs
    simpa using hs
  | cons a m ih =>
    intro s hs
    rw [Multiset.foldl_cons]
    exact ih _ (consistentS_mineStep hmi hs)

theorem sfold_mineStep_cells (mi : Finset Cell) (m : Multiset Cell) :
    ∀ s : Sentence, (m.foldl (mineStep mi) s).cells =
      s.cells \ (m.toFinset ∩ mi) := by
  induction m using Multiset.induction_on with
  | empty =>
    intro s
    simp
  | cons a m ih =>
    intro s
    rw [Multiset.foldl_cons, ih, Multiset.toFinset_cons]
    by_cases ha : a ∈ mi
    · rw [Finset.insert_inter_of_mem ha]
      unfold mineStep
      rw [if_pos ha, mark_mine_cells, erase_sdiff_eq]
    · rw [Finset.insert_inter_of_not_mem ha]
      unfold mineStep
      rw [if_neg ha]

theorem fold_mark_safe_state (m : Multiset Cell) :
    ∀ ai : AIState, m.foldl AIState.mark_safe ai =
      ⟨ai.height, ai.width, ai.moves_made, ai.mines, ai.safes ∪ m.toFinset,
        ai.knowledge.map (fun s => ⟨s.cells \ m.toFinset, s.count⟩)⟩ := by
  induction m using Multiset.induction_on with
  | empty =>
    intro ai
    simp only [Multiset.foldl_zero, Multiset.toFinset_zero, Finset.union_empty,
      Finset.sdiff_empty]
    rw [show (fun s : Sentence => (⟨s.cells, s.count⟩ : Sentence)) = fun s => s
      from rfl, List.map_id']
  | cons a m ih =>
    intro ai
    rw [Multiset.foldl_cons, ih]
    unfold AIState.mark_safe
    simp only [List.map_map, Multiset.toFinset_cons]
    rw [Finset.insert_union, Finset.union_insert]
    refine congrArg (AIState.mk ai.height ai.width ai.moves_made ai.mines _) ?_
    refine List.map_congr_left (fun s _ => ?_)
    simp only [Function.comp_apply, Sentence.mark_safe_eq]
    rw [erase_sdiff_eq]

theorem fold_mark_mine_state (m : Multiset Cell) :
    ∀ ai : AIState, m.foldl AIState.mark_mine ai =
      ⟨ai.height, ai.width, ai.moves_made, ai.mines ∪ m.toFinset, ai.safes,
        ai.knowledge.map (fun s => m.foldl Sentence.mark_mine s)⟩ := by
  induction m using Multiset.induction_on with
  | empty =>
    intro ai
    simp only [Multiset.foldl_zero, Multiset.toFinset_zero, Finset.union_empty]
    rw [List.map_id']
  | cons a m ih =>
    intro ai
    rw [Multiset.foldl_cons, ih]
    unfold AIState.mark_mine
    simp only [List.map_map, Multiset.toFinset_cons]
    rw [Finset.insert_union, Finset.union_insert]
    refine congrArg (AIState.mk ai.height ai.width ai.moves_made _ ai.safes) ?_
    refine List.map_congr_left (fun s _ => ?_)
    simp only [Function.comp_apply]
    rw [Multiset.foldl_cons]

theorem usmStep_eq (ai : AIState) :
    usmStep ai =
      ⟨ai.height, ai.width, ai.moves_made, ai.mines ∪ newMines ai,
        ai.safes ∪ newSafes ai,
        (ai.knowledge.map (fun s =>
          (newMines ai).val.foldl Sentence.mark_mine
            ⟨s.cells \ newSafes ai, s.count⟩)).filter
          (fun s => 0 < s.cells.card)⟩ := by
  simp only [usmStep]
  rw [fold_mark_safe_state]
  rw [fold_mark_mine_state]
  simp only [Finset.val_toFinset, List.map_map]
  rfl

theorem usmStep_mem {ai : AIState} {t : Sentence} :
    t ∈ (usmStep ai).knowledge ↔
      0 < t.cells.card ∧ ∃ s ∈ ai.knowledge,
        t = (newMines ai).val.foldl Sentence.mark_mine
          ⟨s.cells \ newSafes ai, s.count⟩ := by
  rw [usmStep_eq]
  simp only [List.mem_filter, List.mem_map, decide_eq_true_eq]
  constructor
  · rintro ⟨⟨s, hs, rfl⟩, hpos⟩
    exact ⟨hpos, s, hs, rfl⟩
  · rintro ⟨hpos, s, hs, rfl⟩
    exact ⟨⟨s, hs, rfl⟩, hpos⟩

theorem usmStep_mem_cells {ai : AIState} {t : Sentence}
    (ht : t ∈ (usmStep ai).knowledge) :
    0 < t.cells.card ∧ ∃ s ∈ ai.knowledge,
      t.cells = (s.cells \ newSafes ai) \ newMines ai := by
  obtain ⟨hpos, s, hs, rfl⟩ := usmStep_mem.1 ht
  refine ⟨hpos, s, hs, ?_⟩
  rw [sfold_mark_mine_cells, Finset.val_toFinset]

theorem newSafes_not_M {M : Finset Cell} {ai : AIState}
    (hcons : ∀ s ∈ ai.knowledge, ConsistentS M s) :
    ∀ c ∈ newSafes ai, c ∉ M := by
  intro c hc hM
  obtain ⟨s, hs, hcs⟩ := mem_newSafes.1 hc
  obtain ⟨hz, hcell⟩ := mem_known_safes.1 hcs
  have h0 : s.cells ∩ M = ∅ := by
    have := hcons s hs
    unfold ConsistentS at this
    rw [hz] at this
    exact Finset.card_eq_zero.1 (by exact_mod_cast this.symm)
  have : c ∈ s.cells ∩ M := Finset.mem_inter.2 ⟨hcell, hM⟩
  rw [h0] at this
  exact absurd this (Finset.not_mem_empty c)

theorem newMines_M {M : Finset Cell} {ai : AIState}
    (hcons : ∀ s ∈ ai.knowledge, ConsistentS M s) :
    ∀ c ∈ newMines ai, c ∈ M := by
  intro c hc
  obtain ⟨s, hs, hcs⟩ := mem_newMines.1 hc
  obtain ⟨hcard, hcell⟩ := mem_known_mines.1 hcs
  have hM := hcons s hs
  unfold ConsistentS at hM
  have hcards : s.cells.card = (s.cells ∩ M).card := by
    exact_mod_cast hcard.trans hM
  have hfull : s.cells ∩ M = s.cells :=
    Finset.eq_of_subset_of_card_le Finset.inter_subset_left (le_of_eq hcards)
  have : c ∈ s.cells ∩ M := hfull.symm ▸ hcell
  exact (Finset.mem_inter.1 this).2

theorem usmStep_cons {M : Finset Cell} {ai : AIState}
    (hcons : ∀ s ∈ ai.knowledge, ConsistentS M s) :
    ∀ t ∈ (usmStep ai).knowledge, ConsistentS M t := by
  intro t ht
  obtain ⟨-, s, hs, rfl⟩ := usmStep_mem.1 ht
  refine sfold_mark_mine_consistent _ ?_ _ ?_
  · intro c hc
    exact newMines_M hcons c (by rwa [← Finset.mem_def] at hc)
  · exact consistentS_sdiff (newSafes_not_M hcons) (hcons s hs)

theorem list_sum_map_le {α : Type} (l : List α) (f g : α → ℕ)
    (h : ∀ x ∈ l, f x ≤ g x) : (l.map f).sum ≤ (l.map g).sum := by
  induction l with
  | nil => simp
  | cons a l ih =>
    simp only [List.map_cons, List.sum_cons]
    exact Nat.add_le_add (h a (List.mem_cons_self a l))
      (ih (fun x hx => h x (List.mem_cons_of_mem a hx)))

theorem list_sum_map_lt {α : Type} (l : List α) (f g : α → ℕ)
    (h : ∀ x ∈ l, f x ≤ g x) (x0 : α) (hx : x0 ∈ l) (hlt : f x0 < g x0) :
    (l.map f).sum < (l.map g).sum := by
  induction l with
  | nil => cases hx
  | cons a l ih =>
    simp only [List.map_cons, List.sum_cons]
    rcases List.mem_cons.1 hx with rfl | hx0
    · exact Nat.add_lt_add_of_lt_of_le hlt
        (list_sum_map_le l f g (fun x hx2 => h x (List.mem_cons_of_mem _ hx2)))
    · exact Nat.add_lt_add_of_le_of_lt (h a (List.mem_cons_self a l))
        (ih (fun x hx2 => h x (List.mem_cons_of_mem a hx2)) hx0)

theorem list_sum_filter_le {α : Type} (l : List α) (p : α → Bool) (f : α → ℕ) :
    ((l.filter p).map f).sum ≤ (l.map f).sum := by
  induction l with
  | nil => simp
  | cons a l ih =>
    by_cases hp : p a
    · rw [List.filter_cons_of_pos hp]
      simp only [List.map_cons, List.sum_cons]
      exact Nat.add_le_add_left ih _
    · rw [List.filter_cons_of_neg (by simpa using hp)]
      simp only [List.map_cons, List.sum_cons]
      exact le_trans ih (Nat.le_add_left _ _)

theorem usmStep_moves (ai : AIState) :
    (usmStep ai).moves_made = ai.moves_made := by
  rw [usmStep_eq]

theorem usmStep_height (ai : AIState) : (usmStep ai).height = ai.height := by
  rw [usmStep_eq]

theorem usmStep_width (ai : AIState) : (usmStep ai).width = ai.width := by
  rw [usmStep_eq]

theorem usmStep_safes (ai : AIState) :
    (usmStep ai).safes = ai.safes ∪ newSafes ai := by
  rw [usmStep_eq]

theorem usmStep_mines (ai : AIState) :
    (usmStep ai).mines = ai.mines ∪ newMines ai := by
  rw [usmStep_eq]

theorem usmStep_cellsSum_le (ai : AIState) :
    cellsSum (usmStep ai) ≤ cellsSum ai := by
  unfold cellsSum
  rw [usmStep_eq]
  simp only
  refine le_trans (list_sum_filter_le _ _ _) ?_
  rw [List.map_map]
  refine list_sum_map_le _ _ _ (fun s _ => ?_)
  simp only [Function.comp_apply]
  rw [sfold_mark_mine_cells, Finset.val_toFinset]
  exact Finset.card_le_card (le_trans Finset.sdiff_subset Finset.sdiff_subset)

theorem usm_progress_witness {ai : AIState}
    (h : ¬(newSafes ai = ∅ ∧ newMines ai = ∅)) :
    ∃ c, ∃ s0 ∈ ai.knowledge, c ∈ s0.cells ∧
      (c ∈ newSafes ai ∨ c ∈ newMines ai) := by
  rcases not_and_or.1 h with hns | hnm
  · obtain ⟨c, hc⟩ := Finset.nonempty_iff_ne_empty.2 hns
    obtain ⟨s0, hs0, hcs⟩ := mem_newSafes.1 hc
    exact ⟨c, s0, hs0, (mem_known_safes.1 hcs).2, Or.inl hc⟩
  · obtain ⟨c, hc⟩ := Finset.nonempty_iff_ne_empty.2 hnm
    obtain ⟨s0, hs0, hcs⟩ := mem_newMines.1 hc
    exact ⟨c, s0, hs0, (mem_known_mines.1 hcs).2, Or.inr hc⟩

theorem usmStep_cellsSum_lt {ai : AIState}
    (h : ¬(newSafes ai = ∅ ∧ newMines ai = ∅)) :
    cellsSum (usmStep ai) < cellsSum ai := by
  obtain ⟨c, s0, hs0, hcs, hcm⟩ := usm_progress_witness h
  unfold cellsSum
  rw [usmStep_eq]
  simp only
  refine lt_of_le_of_lt (list_sum_filter_le _ _ _) ?_
  rw [List.map_map]
  refine list_sum_map_lt _ _ _ (fun s _ => ?_) s0 hs0 ?_
  · simp only [Function.comp_apply]
    rw [sfold_mark_mine_cells, Finset.val_toFinset]
    exact Finset.card_le_card (le_trans Finset.sdiff_subset Finset.sdiff_subset)
  · simp only [Function.comp_apply]
    rw [sfold_mark_mine_cells, Finset.val_toFinset]
    refine Finset.card_lt_card ⟨le_trans Finset.sdiff_subset Finset.sdiff_subset, ?_⟩
    intro hsub
    have := hsub hcs
    simp only [Finset.mem_sdiff] at this
    rcases hcm with hc | hc
    · exact this.1.2 hc
    · exact this.2 hc

theorem usmStep_deficit_le (U : Finset Cell) (ai : AIState) :
    deficit U (usmStep ai) ≤ deficit U ai := by
  unfold deficit
  rw [usmStep_safes, usmStep_mines]
  refine Finset.card_le_card (Finset.sdiff_subset_sdiff (le_refl U) ?_)
  exact Finset.union_subset_union Finset.subset_union_left
    Finset.subset_union_left

theorem usmStep_deficit_lt {M U : Finset Cell} {ai : AIState}
    (hinv : InvU M U ai) (h : ¬(newSafes ai = ∅ ∧ newMines ai = ∅)) :
    deficit U (usmStep ai) < deficit U ai := by
  obtain ⟨c, s0, hs0, hcs, hcm⟩ := usm_progress_witness h
  obtain ⟨⟨-, -, -, -, hdisj⟩, hU⟩ := hinv
  unfold deficit
  rw [usmStep_safes, usmStep_mines]
  refine Finset.card_lt_card ⟨Finset.sdiff_subset_sdiff (le_refl U)
    (Finset.union_subset_union Finset.subset_union_left
      Finset.subset_union_left), ?_⟩
  intro hsub
  have hcU : c ∈ U := hU s0 hs0 hcs
  have hcsf : c ∉ ai.safes ∧ c ∉ ai.mines := hdisj s0 hs0 c hcs
  have hmem : c ∈ U \ (ai.safes ∪ ai.mines) := by
    simp only [Finset.mem_sdiff, Finset.mem_union]
    exact ⟨hcU, fun hor => hor.elim hcsf.1 hcsf.2⟩
  have := hsub hmem
  simp only [Finset.mem_sdiff, Finset.mem_union] at this
  rcases hcm with hc | hc
  · exact this.2 (Or.inl (Or.inr hc))
  · exact this.2 (Or.inr (Or.inr hc))

theorem usmStep_disj {ai : AIState} (hd : PrunedKB ai) :
    PrunedKB (usmStep ai) := by
  intro t ht c hc
  obtain ⟨-, s, hs, hcf⟩ := usmStep_mem_cells ht
  rw [hcf] at hc
  simp only [Finset.mem_sdiff] at hc
  obtain ⟨⟨⟨hc1, hcns⟩, hcnm⟩⟩ := And.intro hc trivial
  have := hd s hs c hc1
  rw [usmStep_safes, usmStep_mines]
  simp only [Finset.mem_union]
  constructor
  · rintro (h1 | h1)
    · exact this.1 h1
    · exact hcns h1
  · rintro (h1 | h1)
    · exact this.2 h1
    · exact hcnm h1

theorem usmStep_cellsU {U : Finset Cell} {ai : AIState}
    (hU : ∀ s ∈ ai.knowledge, s.cells ⊆ U) :
    ∀ t ∈ (usmStep ai).knowledge, t.cells ⊆ U := by
  intro t ht
  obtain ⟨-, s, hs, hcf⟩ := usmStep_mem_cells ht
  rw [hcf]
  exact le_trans (le_trans Finset.sdiff_subset Finset.sdiff_subset) (hU s hs)

theorem usmStep_consAI {M : Finset Cell} {ai : AIState}
    (h : ConsistentAI M ai) : ConsistentAI M (usmStep ai) := by
  obtain ⟨hcons, hmines, hsafes, hmoves, hdisj⟩ := h
  refine ⟨usmStep_cons hcons, ?_, ?_, ?_, usmStep_disj hdisj⟩
  · rw [usmStep_mines]
    exact Finset.union_subset hmines
      (fun c hc => newMines_M hcons c hc)
  · rw [usmStep_safes]
    intro c hc
    rcases Finset.mem_union.1 hc with h1 | h1
    · exact hsafes c h1
    · exact newSafes_not_M hcons c h1
  · rw [usmStep_moves]
    exact hmoves

theorem usmStep_invU {M U : Finset Cell} {ai : AIState} (h : InvU M U ai) :
    InvU M U (usmStep ai) :=
  ⟨usmStep_consAI h.1, usmStep_cellsU h.2⟩

theorem usmStep_noEmpty (ai : AIState) : NoEmptyKB (usmStep ai) := by
  intro t ht
  exact (usmStep_mem.1 ht).1

theorem usmStep_of_empty {ai : AIState} (hns : newSafes ai = ∅)
    (hnm : newMines ai = ∅) :
    usmStep ai = ⟨ai.height, ai.width, ai.moves_made, ai.mines, ai.safes,
      ai.knowledge.filter (fun s => 0 < s.cells.card)⟩ := by
  rw [usmStep_eq, hns, hnm]
  simp only [Finset.union_empty, Finset.empty_val, Multiset.foldl_zero,
    Finset.sdiff_empty]
  rw [show (fun s : Sentence => (⟨s.cells, s.count⟩ : Sentence)) = fun s => s
    from rfl, List.map_id']

theorem usmLoop_mono : ∀ n m (ai : AIState) (u : Bool) r, n ≤ m →
    usmLoop n ai u = some r → usmLoop m ai u = some r := by
  intro n
  induction n with
  | zero =>
    intro m ai u r hnm h
    simp [usmLoop] at h
  | succ n ih =>
    intro m ai u r hnm h
    obtain ⟨m', rfl⟩ : ∃ m', m = m' + 1 := ⟨m - 1, by omega⟩
    rw [usmLoop] at h ⊢
    split at h
    · rename_i hg
      rw [if_pos hg]
      exact h
    · rename_i hg
      rw [if_neg hg]
      exact ih m' _ true r (by omega) h

theorem usmLoop_flag : ∀ n (ai : AIState) r,
    usmLoop n ai true = some r → r.2 = true := by
  intro n
  induction n with
  | zero =>
    intro ai r h
    simp [usmLoop] at h
  | succ n ih =>
    intro ai r h
    rw [usmLoop] at h
    split at h
    · cases h
      rfl
    · exact ih _ _ h

theorem usmLoop_some : ∀ n (ai : AIState) (u : Bool), cellsSum ai < n →
    ∃ r, usmLoop n ai u = some r := by
  intro n
  induction n with
  | zero =>
    intro ai u h
    exact absurd h (Nat.not_lt_zero _)
  | succ n ih =>
    intro ai u h
    rw [usmLoop]
    by_cases hg : newSafes ai = ∅ ∧ newMines ai = ∅
    · rw [if_pos hg]
      exact ⟨_, rfl⟩
    · rw [if_neg hg]
      exact ih _ true (by
        have := usmStep_cellsSum_lt hg
        omega)

theorem usmLoop_spec {M U : Finset Cell} : ∀ n (ai : AIState) (u : Bool) ai' u',
    InvU M U ai → usmLoop n ai u = some (ai', u') →
      InvU M U ai' ∧ deficit U ai' ≤ deficit U ai ∧ NoEmptyKB ai' ∧
        ai'.moves_made = ai.moves_made ∧ ai'.height = ai.height ∧
        ai'.width = ai.width ∧ ai.safes ⊆ ai'.safes ∧ ai.mines ⊆ ai'.mines := by
  intro n
  induction n with
  | zero =>
    intro ai u ai' u' hinv h
    simp [usmLoop] at h
  | succ n ih =>
    intro ai u ai' u' hinv h
    rw [usmLoop] at h
    split at h
    · cases h
      refine ⟨usmStep_invU hinv, usmStep_deficit_le U ai, usmStep_noEmpty ai,
        usmStep_moves ai, usmStep_height ai, usmStep_width ai, ?_, ?_⟩
      · rw [usmStep_safes]
        exact Finset.subset_union_left
      · rw [usmStep_mines]
        exact Finset.subset_union_left
    · obtain ⟨h1, h2, h3, h4, h5, h6, h7, h8⟩ :=
        ih (usmStep ai) true ai' u' (usmStep_invU hinv) h
      refine ⟨h1, le_trans h2 (usmStep_deficit_le U ai), h3,
        h4.trans (usmStep_moves ai), h5.trans (usmStep_height ai),
        h6.trans (usmStep_width ai), ?_, ?_⟩
      · refine le_trans ?_ h7
        rw [usmStep_safes]
        exact Finset.subset_union_left
      · refine le_trans ?_ h8
        rw [usmStep_mines]
        exact Finset.subset_union_left

theorem usmLoop_fields : ∀ n (ai : AIState) (u : Bool) ai' u',
    usmLoop n ai u = some (ai', u') →
      ai'.moves_made = ai.moves_made ∧ ai'.height = ai.height ∧
        ai'.width = ai.width := by
  intro n
  induction n with
  | zero =>
    intro ai u ai' u' h
    simp [usmLoop] at h
  | succ n ih =>
    intro ai u ai' u' h
    rw [usmLoop] at h
    split at h
    · cases h
      exact ⟨usmStep_moves ai, usmStep_height ai, usmStep_width ai⟩
    · obtain ⟨h1, h2, h3⟩ := ih (usmStep ai) true ai' u' h
      exact ⟨h1.trans (usmStep_moves ai), h2.trans (usmStep_height ai),
        h3.trans (usmStep_width ai)⟩

theorem usmLoop_disj : ∀ n (ai : AIState) (u : Bool) ai' u',
    PrunedKB ai → usmLoop n ai u = some (ai', u') → PrunedKB ai' := by
  intro n
  induction n with
  | zero =>
    intro ai u ai' u' hd h
    simp [usmLoop] at h
  | succ n ih =>
    intro ai u ai' u' hd h
    rw [usmLoop] at h
    split at h
    · cases h
      exact usmStep_disj hd
    · exact ih (usmStep ai) true ai' u' (usmStep_disj hd) h

theorem usmLoop_cons {M : Finset Cell} : ∀ n (ai : AIState) (u : Bool) ai' u',
    (∀ s ∈ ai.knowledge, ConsistentS M s) → usmLoop n ai u = some (ai', u') →
      ∀ s ∈ ai'.knowledge, ConsistentS M s := by
  intro n
  induction n with
  | zero =>
    intro ai u ai' u' hc h
    simp [usmLoop] at h
  | succ n ih =>
    intro ai u ai' u' hc h
    rw [usmLoop] at h
    split at h
    · cases h
      exact usmStep_cons hc
    · exact ih (usmStep ai) true ai' u' (usmStep_cons hc) h

theorem usmLoop_false {n : ℕ} {ai ai' : AIState}
    (h : usmLoop n ai false = some (ai', false)) :
    (newSafes ai = ∅ ∧ newMines ai = ∅) ∧ ai' = usmStep ai := by
  cases n with
  | zero => simp [usmLoop] at h
  | succ n =>
    rw [usmLoop] at h
    split at h
    · rename_i hg
      cases h
      exact ⟨hg, rfl⟩
    · have := usmLoop_flag _ _ _ h
      simp at this

theorem usmLoop_true_deficit {M U : Finset Cell} {n : ℕ} {ai ai' : AIState}
    (hinv : InvU M U ai) (h : usmLoop n ai false = some (ai', true)) :
    deficit U ai' < deficit U ai := by
  cases n with
  | zero => simp [usmLoop] at h
  | succ n =>
    rw [usmLoop] at h
    split at h
    · have h2 := congrArg Prod.snd (Option.some.inj h)
      simp at h2
    · rename_i hg
      obtain ⟨-, h2, -⟩ := usmLoop_spec n (usmStep ai) true ai' true
        (usmStep_invU hinv) h
      exact lt_of_le_of_lt h2 (usmStep_deficit_lt hinv hg)

theorem foldl_mem_or {α β : Type} [DecidableEq β] (P : β → Prop)
    (step : List β → α → List β) :
    ∀ (l : List α), (∀ acc a, a ∈ l → ∀ x ∈ step acc a, x ∈ acc ∨ P x) →
      ∀ acc x, x ∈ l.foldl step acc → x ∈ acc ∨ P x := by
  intro l
  induction l with
  | nil =>
    intro _ acc x hx
    exact Or.inl hx
  | cons a l ih =>
    intro hstep acc x hx
    rw [List.foldl_cons] at hx
    rcases ih (fun acc' a' ha' => hstep acc' a' (List.mem_cons_of_mem _ ha'))
        _ x hx with h | h
    · exact hstep acc a (List.mem_cons_self _ _) x h
    · exact Or.inr h

theorem giNew_mem {k : List Sentence} :
    ∀ x ∈ giNew k, x ∉ k ∧ ∃ s1 ∈ k, ∃ s2 ∈ k,
      s1 ≠ s2 ∧ s1.get_inference s2 = some x := by
  intro x hx
  unfold giNew at hx
  have hmain := foldl_mem_or
    (fun x => x ∉ k ∧ ∃ s1 ∈ k, ∃ s2 ∈ k, s1 ≠ s2 ∧ s1.get_inference s2 = some x)
    _ k ?_ [] x hx
  · rcases hmain with h | h
    · cases h
    · exact h
  · intro acc s1 hs1 y hy
    refine foldl_mem_or
      (fun x => x ∉ k ∧ ∃ s1 ∈ k, ∃ s2 ∈ k, s1 ≠ s2 ∧ s1.get_inference s2 = some x)
      _ k ?_ acc y hy
    intro acc2 s2 hs2 z hz
    by_cases h12 : s1 = s2
    · rw [if_pos h12] at hz
      exact Or.inl hz
    · rw [if_neg h12] at hz
      rcases heq : s1.get_inference s2 with - | inf
      · rw [heq] at hz
        exact Or.inl hz
      · rw [heq] at hz
        have hz2 : z ∈ (if inf ∈ acc2 ∨ inf ∈ k then acc2 else acc2 ++ [inf]) :=
          hz
        by_cases hm : inf ∈ acc2 ∨ inf ∈ k
        · rw [if_pos hm] at hz2
          exact Or.inl hz2
        · rw [if_neg hm] at hz2
          rcases List.mem_append.1 hz2 with h | h
          · exact Or.inl h
          · have hzinf : z = inf := by simpa using h
            subst hzinf
            exact Or.inr ⟨fun hk => hm (Or.inr hk),
              s1, hs1, s2, hs2, h12, heq⟩

theorem giStep_safes (ai : AIState) : (giStep ai).safes = ai.safes := rfl

theorem giStep_mines (ai : AIState) : (giStep ai).mines = ai.mines := rfl

theorem giStep_moves (ai : AIState) :
    (giStep ai).moves_made = ai.moves_made := rfl

theorem giStep_height (ai : AIState) : (giStep ai).height = ai.height := rfl

theorem giStep_width (ai : AIState) : (giStep ai).width = ai.width := rfl

theorem giStep_mem {ai : AIState} {t : Sentence}
    (ht : t ∈ (giStep ai).knowledge) :
    t ∈ ai.knowledge ∨ t ∈ giNew ai.knowledge := by
  unfold giStep at ht
  simpa using List.mem_append.1 ht

theorem giStep_cons {M : Finset Cell} {ai : AIState}
    (hc : ∀ s ∈ ai.knowledge, ConsistentS M s) :
    ∀ t ∈ (giStep ai).knowledge, ConsistentS M t := by
  intro t ht
  rcases giStep_mem ht with h | h
  · exact hc t h
  · obtain ⟨-, s1, hs1, s2, hs2, -, heq⟩ := giNew_mem t h
    exact get_inference_consistent (hc s1 hs1) (hc s2 hs2) heq

theorem giStep_cellsU {U : Finset Cell} {ai : AIState}
    (hU : ∀ s ∈ ai.knowledge, s.cells ⊆ U) :
    ∀ t ∈ (giStep ai).knowledge, t.cells ⊆ U := by
  intro t ht
  rcases giStep_mem ht with h | h
  · exact hU t h
  · obtain ⟨-, s1, hs1, s2, hs2, -, heq⟩ := giNew_mem t h
    obtain ⟨-, hc, -⟩ := get_inference_facts heq
    rw [hc]
    exact le_trans Finset.sdiff_subset (hU s1 hs1)

theorem giStep_disj {ai : AIState} (hd : PrunedKB ai) :
    PrunedKB (giStep ai) := by
  intro t ht c hc
  rw [giStep_safes, giStep_mines]
  rcases giStep_mem ht with h | h
  · exact hd t h c hc
  · obtain ⟨-, s1, hs1, s2, hs2, -, heq⟩ := giNew_mem t h
    obtain ⟨-, hcf, -⟩ := get_inference_facts heq
    rw [hcf] at hc
    exact hd s1 hs1 c (Finset.mem_sdiff.1 hc).1

theorem giStep_noEmpty {M : Finset Cell} {ai : AIState}
    (hc : ∀ s ∈ ai.knowledge, ConsistentS M s) (hne : NoEmptyKB ai) :
    NoEmptyKB (giStep ai) := by
  intro t ht
  rcases giStep_mem ht with h | h
  · exact hne t h
  · obtain ⟨-, s1, hs1, s2, hs2, h12, heq⟩ := giNew_mem t h
    obtain ⟨hsub, hcf, -⟩ := get_inference_facts heq
    rw [Finset.card_pos, hcf, Finset.sdiff_nonempty]
    intro hsub2
    have hcells : s1.cells = s2.cells := le_antisymm hsub2 hsub
    have hcount : s1.count = s2.count := by
      have h1 := hc s1 hs1
      have h2 := hc s2 hs2
      unfold ConsistentS at h1 h2
      rw [h1, h2, hcells]
    exact h12 (by
      cases s1
      cases s2
      simp only at hcells hcount
      rw [hcells, hcount])

theorem giStep_invU {M U : Finset Cell} {ai : AIState} (h : InvU M U ai) :
    InvU M U (giStep ai) := by
  obtain ⟨⟨hc, hm, hs, hmm, hd⟩, hU⟩ := h
  refine ⟨⟨giStep_cons hc, ?_, ?_, ?_, ?_⟩, giStep_cellsU hU⟩
  · rw [giStep_mines]
    exact hm
  · rw [giStep_safes]
    exact hs
  · rw [giStep_moves]
    exact hmm
  · exact giStep_disj hd

theorem kcells_subset_powerset {U : Finset Cell} {k : List Sentence}
    (hU : ∀ s ∈ k, s.cells ⊆ U) : kcells k ⊆ U.powerset := by
  intro X hX
  unfold kcells at hX
  rw [List.mem_toFinset, List.mem_map] at hX
  obtain ⟨s, hs, rfl⟩ := hX
  exact Finset.mem_powerset.2 (hU s hs)

theorem kcells_append_subset (k l : List Sentence) :
    kcells k ⊆ kcells (k ++ l) := by
  intro X hX
  unfold kcells at hX ⊢
  rw [List.mem_toFinset, List.mem_map] at hX ⊢
  obtain ⟨s, hs, rfl⟩ := hX
  exact ⟨s, List.mem_append_left l hs, rfl⟩

theorem giStep_missing_lt {M U : Finset Cell} {ai : AIState}
    (hc : ∀ s ∈ ai.knowledge, ConsistentS M s)
    (hU : ∀ s ∈ ai.knowledge, s.cells ⊆ U)
    (hne : giNew ai.knowledge ≠ []) :
    missing U (giStep ai).knowledge < missing U ai.knowledge := by
  obtain ⟨x, hx⟩ := List.exists_mem_of_ne_nil _ hne
  obtain ⟨hnotin, s1, hs1, s2, hs2, h12, heq⟩ := giNew_mem x hx
  have hxcons : ConsistentS M x :=
    get_inference_consistent (hc s1 hs1) (hc s2 hs2) heq
  obtain ⟨hsub, hcf, -⟩ := get_inference_facts heq
  have hxU : x.cells ∈ U.powerset := by
    rw [Finset.mem_powerset, hcf]
    exact le_trans Finset.sdiff_subset (hU s1 hs1)
  have hxnot : x.cells ∉ kcells ai.knowledge := by
    intro hmem
    unfold kcells at hmem
    rw [List.mem_toFinset, List.mem_map] at hmem
    obtain ⟨s, hs, hscells⟩ := hmem
    have hscons := hc s hs
    have hcount : x.count = s.count := by
      unfold ConsistentS at hxcons hscons
      rw [hxcons, hscons, hscells]
    refine hnotin ?_
    have hxs : x = s := by
      cases x
      cases s
      simp only at hscells hcount
      rw [← hscells, hcount]
    rw [hxs]
    exact hs
  have hxin : x.cells ∈ kcells (giStep ai).knowledge := by
    unfold giStep kcells
    simp only
    rw [List.mem_toFinset, List.mem_map]
    exact ⟨x, List.mem_append_right _ hx, rfl⟩
  unfold missing
  refine Finset.card_lt_card ⟨Finset.sdiff_subset_sdiff (le_refl _)
    (kcells_append_subset _ _), ?_⟩
  intro hsubst
  have hmem : x.cells ∈ U.powerset \ kcells ai.knowledge :=
    Finset.mem_sdiff.2 ⟨hxU, hxnot⟩
  have := hsubst hmem
  exact (Finset.mem_sdiff.1 this).2 hxin

theorem giStep_missing_le (U : Finset Cell) (ai : AIState) :
    missing U (giStep ai).knowledge ≤ missing U ai.knowledge := by
  unfold missing
  exact Finset.card_le_card (Finset.sdiff_subset_sdiff (le_refl _)
    (kcells_append_subset _ _))

theorem giLoop_mono : ∀ n m (ai : AIState) (g : Bool) r, n ≤ m →
    giLoop n ai g = some r → giLoop m ai g = some r := by
  intro n
  induction n with
  | zero =>
    intro m ai g r hnm h
    simp [giLoop] at h
  | succ n ih =>
    intro m ai g r hnm h
    obtain ⟨m', rfl⟩ : ∃ m', m = m' + 1 := ⟨m - 1, by omega⟩
    rw [giLoop] at h ⊢
    split at h
    · rename_i hg
      rw [if_pos hg]
      exact h
    · rename_i hg
      rw [if_neg hg]
      exact ih m' _ true r (by omega) h

theorem giLoop_flag : ∀ n (ai : AIState) r,
    giLoop n ai true = some r → r.2 = true := by
  intro n
  induction n with
  | zero =>
    intro ai r h
    simp [giLoop] at h
  | succ n ih =>
    intro ai r h
    rw [giLoop] at h
    split at h
    · cases h
      rfl
    · exact ih _ _ h

theorem giLoop_some {M U : Finset Cell} : ∀ n (ai : AIState) (g : Bool),
    (∀ s ∈ ai.knowledge, ConsistentS M s) →
    (∀ s ∈ ai.knowledge, s.cells ⊆ U) →
    missing U ai.knowledge < n → ∃ r, giLoop n ai g = some r := by
  intro n
  induction n with
  | zero =>
    intro ai g hc hU h
    exact absurd h (Nat.not_lt_zero _)
  | succ n ih =>
    intro ai g hc hU h
    rw [giLoop]
    by_cases hg : giNew ai.knowledge = []
    · rw [if_pos hg]
      exact ⟨_, rfl⟩
    · rw [if_neg hg]
      refine ih (giStep ai) true (giStep_cons hc) (giStep_cellsU hU) ?_
      have := giStep_missing_lt hc hU hg
      omega

theorem giLoop_spec {M U : Finset Cell} : ∀ n (ai : AIState) (g : Bool) ai' g',
    InvU M U ai → giLoop n ai g = some (ai', g') →
      InvU M U ai' ∧ ai'.safes = ai.safes ∧ ai'.mines = ai.mines ∧
        ai'.moves_made = ai.moves_made ∧ ai'.height = ai.height ∧
        ai'.width = ai.width ∧ (NoEmptyKB ai → NoEmptyKB ai') ∧
        missing U ai'.knowledge ≤ missing U ai.knowledge := by
  intro n
  induction n with
  | zero =>
    intro ai g ai' g' hinv h
    simp [giLoop] at h
  | succ n ih =>
    intro ai g ai' g' hinv h
    rw [giLoop] at h
    split at h
    · cases h
      exact ⟨giStep_invU hinv, giStep_safes ai, giStep_mines ai,
        giStep_moves ai, giStep_height ai, giStep_width ai,
        giStep_noEmpty hinv.1.1, giStep_missing_le U ai⟩
    · obtain ⟨h1, h2, h3, h4, h5, h6, h7, h8⟩ :=
        ih (giStep ai) true ai' g' (giStep_invU hinv) h
      exact ⟨h1, h2.trans (giStep_safes ai), h3.trans (giStep_mines ai),
        h4.trans (giStep_moves ai), h5.trans (giStep_height ai),
        h6.trans (giStep_width ai),
        fun hne => h7 (giStep_noEmpty hinv.1.1 hne),
        le_trans h8 (giStep_missing_le U ai)⟩

theorem giLoop_fields : ∀ n (ai : AIState) (g : Bool) ai' g',
    giLoop n ai g = some (ai', g') →
      ai'.safes = ai.safes ∧ ai'.mines = ai.mines ∧
        ai'.moves_made = ai.moves_made ∧ ai'.height = ai.height ∧
        ai'.width = ai.width := by
  intro n
  induction n with
  | zero =>
    intro ai g ai' g' h
    simp [giLoop] at h
  | succ n ih =>
    intro ai g ai' g' h
    rw [giLoop] at h
    split at h
    · cases h
      exact ⟨giStep_safes ai, giStep_mines ai, giStep_moves ai,
        giStep_height ai, giStep_width ai⟩
    · obtain ⟨h1, h2, h3, h4, h5⟩ := ih (giStep ai) true ai' g' h
      exact ⟨h1.trans (giStep_safes ai), h2.trans (giStep_mines ai),
        h3.trans (giStep_moves ai), h4.trans (giStep_height ai),
        h5.trans (giStep_width ai)⟩

theorem giLoop_disj : ∀ n (ai : AIState) (g : Bool) ai' g',
    PrunedKB ai → giLoop n ai g = some (ai', g') → PrunedKB ai' := by
  intro n
  induction n with
  | zero =>
    intro ai g ai' g' hd h
    simp [giLoop] at h
  | succ n ih =>
    intro ai g ai' g' hd h
    rw [giLoop] at h
    split at h
    · cases h
      exact giStep_disj hd
    · exact ih (giStep ai) true ai' g' (giStep_disj hd) h

theorem giLoop_cons {M : Finset Cell} : ∀ n (ai : AIState) (g : Bool) ai' g',
    (∀ s ∈ ai.knowledge, ConsistentS M s) → giLoop n ai g = some (ai', g') →
      ∀ s ∈ ai'.knowledge, ConsistentS M s := by
  intro n
  induction n with
  | zero =>
    intro ai g ai' g' hc h
    simp [giLoop] at h
  | succ n ih =>
    intro ai g ai' g' hc h
    rw [giLoop] at h
    split at h
    · cases h
      exact giStep_cons hc
    · exact ih (giStep ai) true ai' g' (giStep_cons hc) h

theorem giStep_of_empty {ai : AIState} (hg : giNew ai.knowledge = []) :
    giStep ai = ai := by
  unfold giStep
  rw [hg, List.append_nil]

theorem giLoop_false {n : ℕ} {ai ai' : AIState}
    (h : giLoop n ai false = some (ai', false)) :
    giNew ai.knowledge = [] ∧ ai' = ai := by
  cases n with
  | zero => simp [giLoop] at h
  | succ n =>
    rw [giLoop] at h
    split at h
    · rename_i hg
      cases h
      exact ⟨hg, giStep_of_empty hg⟩
    · have := giLoop_flag _ _ _ h
      simp at this

theorem giLoop_true_missing {M U : Finset Cell} {n : ℕ} {ai ai' : AIState}
    (hinv : InvU M U ai) (h : giLoop n ai false = some (ai', true)) :
    missing U ai'.knowledge < missing U ai.knowledge := by
  cases n with
  | zero => simp [giLoop] at h
  | succ n =>
    rw [giLoop] at h
    split at h
    · have h2 := congrArg Prod.snd (Option.some.inj h)
      simp at h2
    · rename_i hg
      obtain ⟨-, -, -, -, -, -, -, h8⟩ :=
        giLoop_spec n (giStep ai) true ai' true (giStep_invU hinv) h
      exact lt_of_le_of_lt h8 (giStep_missing_lt hinv.1.1 hinv.2 hg)

theorem outerLoop_succ_cases {n : ℕ} {ai : AIState} {r : AIState}
    (h : outerLoop (n + 1) ai = some r) :
    ∃ ai1 ok1 ai2 ok2, usmLoop (n + 1) ai false = some (ai1, ok1) ∧
      giLoop (n + 1) ai1 false = some (ai2, ok2) ∧
      (((ok1 || ok2) = true ∧ outerLoop n ai2 = some r) ∨
        ((ok1 || ok2) = false ∧ r = ai2)) := by
  rw [outerLoop] at h
  rcases heq1 : usmLoop (n + 1) ai false with - | ⟨ai1, ok1⟩
  · rw [heq1] at h
    have h0 : (none : Option AIState) = some r := h
    cases h0
  · rw [heq1] at h
    have h1 : (match giLoop (n + 1) ai1 false with
      | none => none
      | some (ai2, ok2) =>
        if ok1 || ok2 then outerLoop n ai2 else some ai2) = some r := h
    rcases heq2 : giLoop (n + 1) ai1 false with - | ⟨ai2, ok2⟩
    · rw [heq2] at h1
      have h0 : (none : Option AIState) = some r := h1
      cases h0
    · rw [heq2] at h1
      have h2 : (if ok1 || ok2 then outerLoop n ai2 else some ai2) = some r :=
        h1
      refine ⟨ai1, ok1, ai2, ok2, rfl, heq2, ?_⟩
      cases hok : (ok1 || ok2)
      · rw [hok] at h2
        simp only [Bool.false_eq_true, if_false] at h2
        exact Or.inr ⟨rfl, (Option.some.inj h2).symm⟩
      · rw [hok] at h2
        simp only [if_true] at h2
        exact Or.inl ⟨rfl, h2⟩

theorem outerLoop_build {n : ℕ} {ai ai1 ai2 : AIState} {ok1 ok2 : Bool}
    (h1 : usmLoop (n + 1) ai false = some (ai1, ok1))
    (h2 : giLoop (n + 1) ai1 false = some (ai2, ok2)) {r : AIState}
    (h3 : ((ok1 || ok2) = true ∧ outerLoop n ai2 = some r) ∨
      ((ok1 || ok2) = false ∧ r = ai2)) :
    outerLoop (n + 1) ai = some r := by
  have hstep : outerLoop (n + 1) ai =
      (if (ok1 || ok2) = true then outerLoop n ai2 else some ai2) := by
    rw [outerLoop, h1]
    have hred : (match some (ai1, ok1) with
        | none => (none : Option AIState)
        | some (ai1, ok1) =>
          match giLoop (n + 1) ai1 false with
          | none => none
          | some (ai2, ok2) =>
            if ok1 || ok2 then outerLoop n ai2 else some ai2) =
        (match giLoop (n + 1) ai1 false with
        | none => (none : Option AIState)
        | some (ai2, ok2) =>
          if ok1 || ok2 then outerLoop n ai2 else some ai2) := rfl
    rw [hred, h2]
  rw [hstep]
  rcases h3 with ⟨hok, hrec⟩ | ⟨hok, hr⟩
  · rw [hok]
    simpa using hrec
  · rw [hok]
    simp [hr]

theorem outerLoop_mono : ∀ n m (ai : AIState) r, n ≤ m →
    outerLoop n ai = some r → outerLoop m ai = some r := by
  intro n
  induction n with
  | zero =>
    intro m ai r hnm h
    simp [outerLoop] at h
  | succ n ih =>
    intro m ai r hnm h
    obtain ⟨m', rfl⟩ : ∃ m', m = m' + 1 := ⟨m - 1, by omega⟩
    obtain ⟨ai1, ok1, ai2, ok2, h1, h2, h3⟩ := outerLoop_succ_cases h
    refine outerLoop_build (usmLoop_mono _ _ _ _ _ (by omega) h1)
      (giLoop_mono _ _ _ _ _ (by omega) h2) ?_
    rcases h3 with ⟨hok, hrec⟩ | hdone
    · exact Or.inl ⟨hok, ih m' ai2 r (by omega) hrec⟩
    · exact Or.inr hdone

theorem outerLoop_spec {M U : Finset Cell} : ∀ n (ai : AIState) ai',
    InvU M U ai → outerLoop n ai = some ai' →
      InvU M U ai' ∧ ai'.moves_made = ai.moves_made ∧
        ai'.height = ai.height ∧ ai'.width = ai.width ∧
        ai.safes ⊆ ai'.safes ∧ ai.mines ⊆ ai'.mines := by
  intro n
  induction n with
  | zero =>
    intro ai ai' hinv h
    simp [outerLoop] at h
  | succ n ih =>
    intro ai ai' hinv h
    obtain ⟨ai1, ok1, ai2, ok2, h1, h2, h3⟩ := outerLoop_succ_cases h
    obtain ⟨hinv1, -, -, hm1, hh1, hw1, hs1, hmi1⟩ :=
      usmLoop_spec (n + 1) ai false ai1 ok1 hinv h1
    obtain ⟨hinv2, hsf2, hmn2, hm2, hh2, hw2, -, -⟩ :=
      giLoop_spec (n + 1) ai1 false ai2 ok2 hinv1 h2
    have hbase : InvU M U ai2 ∧ ai2.moves_made = ai.moves_made ∧
        ai2.height = ai.height ∧ ai2.width = ai.width ∧
        ai.safes ⊆ ai2.safes ∧ ai.mines ⊆ ai2.mines := by
      refine ⟨hinv2, hm2.trans hm1, hh2.trans hh1, hw2.trans hw1, ?_, ?_⟩
      · rw [hsf2]
        exact hs1
      · rw [hmn2]
        exact hmi1
    rcases h3 with ⟨-, hrec⟩ | ⟨-, rfl⟩
    · obtain ⟨k1, k2, k3, k4, k5, k6⟩ := ih ai2 ai' hbase.1 hrec
      exact ⟨k1, k2.trans hbase.2.1, k3.trans hbase.2.2.1,
        k4.trans hbase.2.2.2.1, le_trans hbase.2.2.2.2.1 k5,
        le_trans hbase.2.2.2.2.2 k6⟩
    · exact hbase

theorem outerLoop_disj : ∀ n (ai : AIState) ai',
    PrunedKB ai → outerLoop n ai = some ai' → PrunedKB ai' := by
  intro n
  induction n with
  | zero =>
    intro ai ai' hd h
    simp [outerLoop] at h
  | succ n ih =>
    intro ai ai' hd h
    obtain ⟨ai1, ok1, ai2, ok2, h1, h2, h3⟩ := outerLoop_succ_cases h
    have hd1 := usmLoop_disj (n + 1) ai false ai1 ok1 hd h1
    have hd2 := giLoop_disj (n + 1) ai1 false ai2 ok2 hd1 h2
    rcases h3 with ⟨-, hrec⟩ | ⟨-, rfl⟩
    · exact ih ai2 ai' hd2 hrec
    · exact hd2

theorem outerLoop_cons {M : Finset Cell} : ∀ n (ai : AIState) ai',
    (∀ s ∈ ai.knowledge, ConsistentS M s) → outerLoop n ai = some ai' →
      ∀ s ∈ ai'.knowledge, ConsistentS M s := by
  intro n
  induction n with
  | zero =>
    intro ai ai' hc h
    simp [outerLoop] at h
  | succ n ih =>
    intro ai ai' hc h
    obtain ⟨ai1, ok1, ai2, ok2, h1, h2, h3⟩ := outerLoop_succ_cases h
    have hc1 := usmLoop_cons (n + 1) ai false ai1 ok1 hc h1
    have hc2 := giLoop_cons (n + 1) ai1 false ai2 ok2 hc1 h2
    rcases h3 with ⟨-, hrec⟩ | ⟨-, rfl⟩
    · exact ih ai2 ai' hc2 hrec
    · exact hc2

theorem outerLoop_fields : ∀ n (ai : AIState) ai',
    outerLoop n ai = some ai' →
      ai'.moves_made = ai.moves_made ∧ ai'.height = ai.height ∧
        ai'.width = ai.width := by
  intro n
  induction n with
  | zero =>
    intro ai ai' h
    simp [outerLoop] at h
  | succ n ih =>
    intro ai ai' h
    obtain ⟨ai1, ok1, ai2, ok2, h1, h2, h3⟩ := outerLoop_succ_cases h
    obtain ⟨f1, f2, f3⟩ := usmLoop_fields (n + 1) ai false ai1 ok1 h1
    obtain ⟨-, -, g1, g2, g3⟩ := giLoop_fields (n + 1) ai1 false ai2 ok2 h2
    rcases h3 with ⟨-, hrec⟩ | ⟨-, rfl⟩
    · obtain ⟨k1, k2, k3⟩ := ih ai2 ai' hrec
      exact ⟨k1.trans (g1.trans f1), k2.trans (g2.trans f2),
        k3.trans (g3.trans f3)⟩
    · exact ⟨g1.trans f1, g2.trans f2, g3.trans f3⟩

theorem missing_le_card (U : Finset Cell) (k : List Sentence) :
    missing U k ≤ U.powerset.card :=
  Finset.card_le_card Finset.sdiff_subset

theorem eInd_zero {ai : AIState} (h : NoEmptyKB ai) : eInd ai = 0 := by
  unfold eInd
  rw [if_pos h]

theorem deficit_congr {U : Finset Cell} {a b : AIState}
    (hs : b.safes = a.safes) (hm : b.mines = a.mines) :
    deficit U b = deficit U a := by
  unfold deficit
  rw [hs, hm]

theorem missing_filter (U : Finset Cell) (ai : AIState) :
    missing U (ai.knowledge.filter (fun s => 0 < s.cells.card)) ≤
      missing U ai.knowledge + eInd ai := by
  by_cases hne : NoEmptyKB ai
  · have hfix : ai.knowledge.filter (fun s => 0 < s.cells.card) =
        ai.knowledge :=
      List.filter_eq_self.2 (fun s hs => by simpa using hne s hs)
    rw [hfix]
    omega
  · unfold eInd
    rw [if_neg hne]
    unfold missing
    have hsub : U.powerset \ kcells (ai.knowledge.filter
        (fun s => 0 < s.cells.card)) ⊆
        (U.powerset \ kcells ai.knowledge) ∪ {(∅ : Finset Cell)} := by
      intro X hX
      rw [Finset.mem_sdiff] at hX
      by_cases hXe : X = (∅ : Finset Cell)
      · exact Finset.mem_union_right _ (by simp [hXe])
      · refine Finset.mem_union_left _ (Finset.mem_sdiff.2 ⟨hX.1, ?_⟩)
        intro hmem
        apply hX.2
        unfold kcells at hmem ⊢
        rw [List.mem_toFinset, List.mem_map] at hmem ⊢
        obtain ⟨s, hs, rfl⟩ := hmem
        refine ⟨s, ?_, rfl⟩
        rw [List.mem_filter]
        refine ⟨hs, ?_⟩
        simpa using Finset.card_pos.2 (Finset.nonempty_iff_ne_empty.2 hXe)
    calc (U.powerset \ kcells (ai.knowledge.filter
          (fun s => 0 < s.cells.card))).card
        ≤ ((U.powerset \ kcells ai.knowledge) ∪ {(∅ : Finset Cell)}).card :=
          Finset.card_le_card hsub
      _ ≤ (U.powerset \ kcells ai.knowledge).card +
            ({(∅ : Finset Cell)} : Finset (Finset Cell)).card :=
          Finset.card_union_le _ _
      _ = (U.powerset \ kcells ai.knowledge).card + 1 := by simp

theorem outer_iter_decrease {M U : Finset Cell} {n1 n2 : ℕ}
    {ai ai1 ai2 : AIState} {ok1 ok2 : Bool} (hinv : InvU M U ai)
    (h1 : usmLoop n1 ai false = some (ai1, ok1))
    (h2 : giLoop n2 ai1 false = some (ai2, ok2))
    (hok : (ok1 || ok2) = true) :
    omeasure U ai2 < omeasure U ai := by
  obtain ⟨hinv1, hdef1, hne1, -, -, -, -, -⟩ :=
    usmLoop_spec n1 ai false ai1 ok1 hinv h1
  obtain ⟨hinv2, hsf2, hmn2, -, -, -, hnem2, hmis2⟩ :=
    giLoop_spec n2 ai1 false ai2 ok2 hinv1 h2
  have hd21 : deficit U ai2 = deficit U ai1 := deficit_congr hsf2 hmn2
  have he2 : eInd ai2 = 0 := eInd_zero (hnem2 hne1)
  cases hok1 : ok1 with
  | true =>
    rw [hok1] at h1
    have hdlt : deficit U ai1 < deficit U ai := usmLoop_true_deficit hinv h1
    have hm2 : missing U ai2.knowledge ≤ U.powerset.card :=
      missing_le_card U _
    unfold omeasure
    rw [he2]
    have hstep3 : (U.powerset.card + 1) * deficit U ai2 +
        (U.powerset.card + 1) = (U.powerset.card + 1) *
          (deficit U ai2 + 1) := by ring
    have hstep4 : (U.powerset.card + 1) * (deficit U ai2 + 1) ≤
        (U.powerset.card + 1) * deficit U ai :=
      Nat.mul_le_mul_left _ (by omega)
    omega
  | false =>
    rw [hok1] at h1 hok
    simp only [Bool.false_or] at hok
    rw [hok] at h2
    obtain ⟨⟨hns, hnm⟩, hai1⟩ := usmLoop_false h1
    have hai1f : ai1 = ⟨ai.height, ai.width, ai.moves_made, ai.mines,
        ai.safes, ai.knowledge.filter (fun s => 0 < s.cells.card)⟩ := by
      rw [hai1]
      exact usmStep_of_empty hns hnm
    have hd1 : deficit U ai1 = deficit U ai := by
      refine deficit_congr ?_ ?_ <;> rw [hai1f]
    have hm1 : missing U ai1.knowledge ≤
        missing U ai.knowledge + eInd ai := by
      rw [hai1f]
      exact missing_filter U ai
    have hm21 : missing U ai2.knowledge < missing U ai1.knowledge :=
      giLoop_true_missing hinv1 h2
    have hdd : deficit U ai2 = deficit U ai := hd21.trans hd1
    unfold omeasure
    rw [hdd, he2]
    omega

theorem outerLoop_term {M U : Finset Cell} : ∀ k (ai : AIState),
    omeasure U ai ≤ k → InvU M U ai →
      ∃ n ai', outerLoop n ai = some ai' := by
  intro k
  induction k using Nat.strong_induction_on with
  | _ k ih =>
    intro ai hk hinv
    obtain ⟨r1, heq1⟩ :=
      usmLoop_some (cellsSum ai + 1) ai false (Nat.lt_succ_self _)
    obtain ⟨ai1, ok1⟩ := r1
    have hinv1 := (usmLoop_spec _ ai false ai1 ok1 hinv heq1).1
    obtain ⟨r2, heq2⟩ := giLoop_some (M := M) (U := U)
      (missing U ai1.knowledge + 1) ai1 false hinv1.1.1 hinv1.2
      (Nat.lt_succ_self _)
    obtain ⟨ai2, ok2⟩ := r2
    cases hok : (ok1 || ok2) with
    | false =>
      refine ⟨max (cellsSum ai + 1) (missing U ai1.knowledge + 1), ai2, ?_⟩
      obtain ⟨N', hN'⟩ : ∃ N',
          max (cellsSum ai + 1) (missing U ai1.knowledge + 1) = N' + 1 :=
        ⟨max (cellsSum ai + 1) (missing U ai1.knowledge + 1) - 1, by omega⟩
      rw [hN']
      exact outerLoop_build (usmLoop_mono _ _ _ _ _ (by omega) heq1)
        (giLoop_mono _ _ _ _ _ (by omega) heq2) (Or.inr ⟨hok, rfl⟩)
    | true =>
      have hdec := outer_iter_decrease hinv heq1 heq2 hok
      have hinv2 := (giLoop_spec _ ai1 false ai2 ok2 hinv1 heq2).1
      obtain ⟨n3, ai', hrec⟩ := ih (omeasure U ai2)
        (lt_of_lt_of_le hdec hk) ai2 (le_refl _) hinv2
      refine ⟨max (max (cellsSum ai + 1) (missing U ai1.knowledge + 1))
        (n3 + 1), ai', ?_⟩
      obtain ⟨N', hN'⟩ : ∃ N',
          max (max (cellsSum ai + 1) (missing U ai1.knowledge + 1))
            (n3 + 1) = N' + 1 :=
        ⟨max (max (cellsSum ai + 1) (missing U ai1.knowledge + 1))
          (n3 + 1) - 1, by omega⟩
      rw [hN']
      exact outerLoop_build (usmLoop_mono _ _ _ _ _ (by omega) heq1)
        (giLoop_mono _ _ _ _ _ (by omega) heq2)
        (Or.inl ⟨hok, outerLoop_mono _ _ _ _ (by omega) hrec⟩)

theorem preSentence_cells (ai : AIState) (cell : Cell) (count : ℤ) :
    (preSentence ai cell count).cells =
      ((get_nearby_cells ai.height ai.width cell \
        (get_nearby_cells ai.height ai.width cell ∩ ai.mines)) \ ai.safes) \
        ai.moves_made := by
  unfold preSentence
  simp only
  rw [sfold_mineStep_cells, Finset.val_toFinset]

theorem preSentence_not_known {ai : AIState} {cell : Cell} {count : ℤ}
    {c : Cell} (hc : c ∈ (preSentence ai cell count).cells) :
    c ∉ ai.safes ∧ c ∉ ai.mines := by
  rw [preSentence_cells] at hc
  simp only [Finset.mem_sdiff, Finset.mem_inter, not_and] at hc
  exact ⟨hc.1.2, fun hm => (hc.1.1.2 hc.1.1.1) hm⟩

theorem preSentence_cons {M : Finset Cell} {ai : AIState} {cell : Cell}
    {count : ℤ} (hmines : ai.mines ⊆ M)
    (hsafes : ∀ c ∈ ai.safes, c ∉ M) (hmoves : ∀ c ∈ ai.moves_made, c ∉ M)
    (hcount : count =
      ((get_nearby_cells ai.height ai.width cell ∩ M).card : ℤ)) :
    ConsistentS M (preSentence ai cell count) := by
  unfold preSentence
  simp only
  generalize get_nearby_cells ai.height ai.width cell = nb at hcount ⊢
  refine consistentS_sdiff hmoves (consistentS_sdiff hsafes ?_)
  exact sfold_mineStep_consistent hmines _ _ hcount

theorem preState_knowledge (ai : AIState) (cell : Cell) (count : ℤ) :
    (preState ai cell count).knowledge =
      (ai.knowledge ++ [preSentence ai cell count]).map
        (fun s => s.mark_safe cell) := rfl

theorem preState_safes (ai : AIState) (cell : Cell) (count : ℤ) :
    (preState ai cell count).safes = insert cell ai.safes := rfl

theorem preState_moves (ai : AIState) (cell : Cell) (count : ℤ) :
    (preState ai cell count).moves_made = insert cell ai.moves_made := rfl

theorem preState_mines (ai : AIState) (cell : Cell) (count : ℤ) :
    (preState ai cell count).mines = ai.mines := rfl

theorem preState_height (ai : AIState) (cell : Cell) (count : ℤ) :
    (preState ai cell count).height = ai.height := rfl

theorem preState_width (ai : AIState) (cell : Cell) (count : ℤ) :
    (preState ai cell count).width = ai.width := rfl

set_option maxHeartbeats 1000000 in
theorem preState_disj {ai : AIState} {cell : Cell} {count : ℤ}
    (hd : PrunedKB ai) : PrunedKB (preState ai cell count) := by
  intro t ht c hc
  rw [preState_knowledge] at ht
  rw [List.mem_map] at ht
  obtain ⟨s, hs, rfl⟩ := ht
  rw [mark_safe_cells, Finset.mem_erase] at hc
  obtain ⟨hne, hcs⟩ := hc
  rw [preState_safes, preState_mines]
  have hkn : c ∉ ai.safes ∧ c ∉ ai.mines := by
    rcases List.mem_append.1 hs with h | h
    · exact hd s h c hcs
    · have hone : s = preSentence ai cell count := by simpa using h
      subst hone
      exact preSentence_not_known hcs
  exact ⟨by

    simp only [Finset.mem_insert]
    rintro (h | h)
    · exact hne h
    · exact hkn.1 h, hkn.2⟩

set_option maxHeartbeats 1000000 in
theorem preState_consAI {M : Finset Cell} {ai : AIState} {cell : Cell}
    {count : ℤ} (hM : ConsistentAI M ai)
    (hcount : count =
      ((get_nearby_cells ai.height ai.width cell ∩ M).card : ℤ))
    (hcell : cell ∉ M) : ConsistentAI M (preState ai cell count) := by
  obtain ⟨hcons, hmines, hsafes, hmoves, hdisj⟩ := hM
  refine ⟨?_, ?_, ?_, ?_, preState_disj hdisj⟩
  · intro t ht
    rw [preState_knowledge, List.mem_map] at ht
    obtain ⟨s, hs, rfl⟩ := ht
    refine consistentS_mark_safe hcell ?_
    rcases List.mem_append.1 hs with h | h
    · exact hcons s h
    · have hone : s = preSentence ai cell count := by simpa using h
      subst hone
      exact preSentence_cons hmines hsafes hmoves hcount
  · rw [preState_mines]
    exact hmines
  · rw [preState_safes]
    intro c hc
    rcases Finset.mem_insert.1 hc with rfl | h
    · exact hcell
    · exact hsafes c h
  · rw [preState_moves]
    intro c hc
    rcases Finset.mem_insert.1 hc with rfl | h
    · exact hcell
    · exact hmoves c h

theorem mem_dedupKnowledge {l : List Sentence} :
    ∀ x ∈ dedupKnowledge l, x ∈ l := by
  intro x hx
  unfold dedupKnowledge at hx
  have := foldl_mem_or (fun y => y ∈ l) _ l ?_ [] x hx
  · rcases this with h | h
    · cases h
    · exact h
  · intro acc s hs y hy
    by_cases hm : s ∈ acc
    · rw [if_pos hm] at hy
      exact Or.inl hy
    · rw [if_neg hm] at hy
      rcases List.mem_append.1 hy with h | h
      · exact Or.inl h
      · have : y = s := by simpa using h
        subst this
        exact Or.inr hs

theorem add_knowledge_cases {n : ℕ} {ai : AIState} {cell : Cell} {count : ℤ}
    {ai' : AIState} (h : add_knowledge n ai cell count = some ai') :
    ∃ ai2, outerLoop n (preState ai cell count) = some ai2 ∧
      ai' = { ai2 with knowledge := dedupKnowledge ai2.knowledge } := by
  unfold add_knowledge at h
  rcases heq : outerLoop n (preState ai cell count) with - | ai2
  · rw [heq] at h
    have h0 : (none : Option AIState) = some ai' := h
    cases h0
  · rw [heq] at h
    have h1 : some { ai2 with knowledge := dedupKnowledge ai2.knowledge } =
        some ai' := h
    exact ⟨ai2, rfl, (Option.some.inj h1).symm⟩

theorem add_knowledge_build {n : ℕ} {ai : AIState} {cell : Cell} {count : ℤ}
    {ai2 : AIState} (h : outerLoop n (preState ai cell count) = some ai2) :
    add_knowledge n ai cell count =
      some { ai2 with knowledge := dedupKnowledge ai2.knowledge } := by
  unfold add_knowledge
  rw [h]

/-- C1: `A.subset_infer B` (code `Sentence.get_inference`) returns the
difference sentence `⟨A.cells − B.cells, A.count − B.count⟩` exactly when
`B.cells ⊆ A.cells`, and `none` exactly when `B.cells` is not a subset of
`A.cells`.  The operation is a pure function of the two sentences: neither
input is modified (the source constructs a fresh `Sentence` from fresh sets). -/
theorem subset_infer_spec (A B : Sentence) :
    (A.get_inference B = none ↔ ¬ B.cells ⊆ A.cells) ∧
    (∀ r : Sentence, A.get_inference B = some r ↔
      (B.cells ⊆ A.cells ∧ r.cells = A.cells \ B.cells ∧
        r.count = A.count - B.count)) := by
  unfold Sentence.get_inference
  constructor
  · split <;> simp [*]
  · intro r
    split
    · rename_i h
      simp only [Option.some.injEq]
      constructor
      · rintro rfl
        exact ⟨h, rfl, rfl⟩
      · rintro ⟨-, hc, hn⟩
        cases r
        cases hc
        cases hn
        rfl
    · simp [*]

/-- C2: the direct-deduction queries are pure and total; a cell is in
`known_mines s` iff `count` equals `|cells|` and the cell is in `cells`
(so the result is `s.cells` in that case and `∅` otherwise), and a cell is in
`known_safes s` iff `count = 0` and the cell is in `cells`.  Both are pure
functions of `s`; the sentence is unchanged. -/
theorem known_queries_spec (s : Sentence) (c : Cell) :
    (c ∈ s.known_mines ↔ ((s.cells.card : ℤ) = s.count ∧ c ∈ s.cells)) ∧
    (c ∈ s.known_safes ↔ (s.count = 0 ∧ c ∈ s.cells)) := by
  unfold Sentence.known_mines Sentence.known_safes
  constructor
  · split <;> simp [*]
  · split <;> simp [*]

/-- C7: `make_random_move` returns Python `None` (modelled `some none`)
exactly when `|moves_made| + |mines| = height * width`; any cell it returns is
an in-bounds cell outside `moves_made ∪ mines`.  `draws` is the stream of
`random.randint` results, in-bounds by `randint`'s contract. -/
theorem make_random_move_spec (ai : AIState) (draws : ℕ → Cell)
    (hd : ∀ i : ℕ, 0 ≤ (draws i).1 ∧ (draws i).1 < ai.height ∧
      0 ≤ (draws i).2 ∧ (draws i).2 < ai.width) :
    (∀ fuel, make_random_move ai draws fuel = some none ↔
      ((ai.moves_made.card + ai.mines.card : ℤ) = ai.height * ai.width)) ∧
    (∀ fuel c, make_random_move ai draws fuel = some (some c) →
      (0 ≤ c.1 ∧ c.1 < ai.height ∧ 0 ≤ c.2 ∧ c.2 < ai.width) ∧
        c ∉ ai.moves_made ∧ c ∉ ai.mines) := by
  constructor
  · intro fuel
    unfold make_random_move
    split
    · simp [*]
    · rename_i h
      rcases heq : randLoop ai draws fuel 0 with - | c <;> simp [heq, h]
  · intro fuel c h
    unfold make_random_move at h
    split at h
    · simp at h
    · cases heq : randLoop ai draws fuel 0 with
      | none => rw [heq] at h; simp at h
      | some c0 =>
        rw [heq] at h
        obtain ⟨⟨j, hj⟩, hm, hn⟩ := randLoop_some ai draws fuel 0 c0 heq
        subst hj
        have hc : draws j = c := by simpa using h
        rw [← hc]
        exact ⟨hd j, hm, hn⟩

/-- C7 witness: a concrete engine (1×1 board, no recorded moves or mines) and
a concrete draw stream instantiating `make_random_move_spec`. -/
theorem make_random_move_spec_witness :
    make_random_move ⟨1, 1, ∅, ∅, ∅, []⟩ (fun _ => ((0 : ℤ), (0 : ℤ))) 1 =
        some none ↔
      (((∅ : Finset Cell).card + (∅ : Finset Cell).card : ℤ)) = 1 * 1 :=
  (make_random_move_spec ⟨1, 1, ∅, ∅, ∅, []⟩ (fun _ => ((0 : ℤ), (0 : ℤ)))
    (fun _ => by refine ⟨?_, ?_, ?_, ?_⟩ <;> norm_num)).1 1

/-- C8 counterexample: `Sentence.mark_mine` on the sentence `{(0,0)} = 0`
completes normally with count `-1` — the source has no assertion, so a
decrement that drives the count negative neither aborts nor clamps,
contradicting the claim that it aborts with a fatal assertion failure. -/
theorem mark_mine_no_assert_cx :
    Sentence.mark_mine ⟨{((0 : ℤ), (0 : ℤ))}, 0⟩ ((0 : ℤ), (0 : ℤ)) =
        ⟨∅, -1⟩ ∧
      (Sentence.mark_mine ⟨{((0 : ℤ), (0 : ℤ))}, 0⟩ ((0 : ℤ), (0 : ℤ))).count
        < 0 := by
  decide

/-- C8 amended: `Sentence.mark_mine` removes a present cell and decrements
`count` unconditionally; it always completes normally (it is a total
function), even when the decrement drives `count` below zero — there is no
assertion and no clamping. -/
theorem mark_mine_amended (s : Sentence) (c : Cell) (h : c ∈ s.cells) :
    s.mark_mine c = ⟨s.cells.erase c, s.count - 1⟩ := by
  unfold Sentence.mark_mine
  simp [h]

/-- C8 amended witness: the concrete instance at the sentence `{(0,0)} = 0`. -/
theorem mark_mine_amended_witness :
    Sentence.mark_mine ⟨{((0 : ℤ), (0 : ℤ))}, 0⟩ ((0 : ℤ), (0 : ℤ)) =
      ⟨({((0 : ℤ), (0 : ℤ))} : Finset Cell).erase ((0 : ℤ), (0 : ℤ)), 0 - 1⟩ :=
  mark_mine_amended ⟨{((0 : ℤ), (0 : ℤ))}, 0⟩ ((0 : ℤ), (0 : ℤ)) (by decide)

/-- C9 counterexample: calling `add_knowledge` with a cell already in
`moves_made` is processed as ordinary input and completes normally (here it
returns the unchanged engine state); no error is surfaced — the source has no
repeated-cell check and no error path. -/
theorem repeated_cell_cx :
    ((0 : ℤ), (0 : ℤ)) ∈
        (⟨1, 1, {((0 : ℤ), (0 : ℤ))}, ∅, {((0 : ℤ), (0 : ℤ))}, []⟩ :
          AIState).moves_made ∧
      add_knowledge 2
          ⟨1, 1, {((0 : ℤ), (0 : ℤ))}, ∅, {((0 : ℤ), (0 : ℤ))}, []⟩
          ((0 : ℤ), (0 : ℤ)) 0 =
        some ⟨1, 1, {((0 : ℤ), (0 : ℤ))}, ∅, {((0 : ℤ), (0 : ℤ))}, []⟩ := by
  decide

/-- C10: `make_safe_move` never modifies the engine state: whatever the
result (a cell or `none`), `moves_made`, `safes`, `mines` and the knowledge
collection are exactly what they were before the call (the source works on a
copy of `safes` and assigns no field of `self`). -/
theorem make_safe_move_frame (pick : Finset Cell → Cell) (ai : AIState) :
    (make_safe_move pick ai).2 = ai ∧
    (make_safe_move pick ai).2.moves_made = ai.moves_made ∧
    (make_safe_move pick ai).2.safes = ai.safes ∧
    (make_safe_move pick ai).2.mines = ai.mines ∧
    (make_safe_move pick ai).2.knowledge = ai.knowledge := by
  have h : (make_safe_move pick ai).2 = ai := by
    simp only [make_safe_move]
    split <;> rfl
  exact ⟨h, by rw [h], by rw [h], by rw [h], by rw [h]⟩

/-- C3: on an engine whose knowledge base is consistent with some mine
assignment `M` (and satisfying the documented state invariants of §3, bundled
in `ConsistentAI`), with the board reporting the consistent neighbor count and
the probed cell not a mine, the propagation fixpoint of `add_knowledge` —
alternating `update_safes_and_mines` and `generate_inferences` until neither
reports progress — terminates: some finite fuel makes the fueled model return
(`isSome`), so `add_knowledge` always returns. -/
theorem add_knowledge_terminates (ai : AIState) (cell : Cell) (count : ℤ)
    (M : Finset Cell) (hM : ConsistentAI M ai)
    (hcount : count =
      ((get_nearby_cells ai.height ai.width cell ∩ M).card : ℤ))
    (hcell : cell ∉ M) :
    ∃ n, (add_knowledge n ai cell count).isSome := by
  obtain ⟨n, ai', h⟩ := outerLoop_term (M := M)
    (U := bigU (preState ai cell count))
    (omeasure (bigU (preState ai cell count)) (preState ai cell count))
    (preState ai cell count) (le_refl _)
    ⟨preState_consAI hM hcount hcell, subset_bigU⟩
  refine ⟨n, ?_⟩
  rw [add_knowledge_build h]
  rfl

/-- C3 witness: the fixpoint terminates on a concrete consistent engine
(empty 1×1 board, mine assignment `∅`, observation `count = 0`). -/
theorem add_knowledge_terminates_witness :
    ∃ n, (add_knowledge n ⟨1, 1, ∅, ∅, ∅, []⟩ ((0 : ℤ), (0 : ℤ)) 0).isSome :=
  add_knowledge_terminates ⟨1, 1, ∅, ∅, ∅, []⟩ ((0 : ℤ), (0 : ℤ)) 0 ∅
    (by decide) (by decide) (by decide)

/-- C4: `add_knowledge` preserves the pruning invariant: if before the call
no cell of `safes` or `mines` occurs in any sentence of the knowledge base,
then after the call returns, no cell of the (possibly grown) `safes`/`mines`
occurs in any remaining sentence — proven cells are pruned everywhere and
freshly created sentences never contain them. -/
theorem add_knowledge_pruned (ai : AIState) (cell : Cell) (count : ℤ)
    (n : ℕ) (ai' : AIState) (hd : PrunedKB ai)
    (h : add_knowledge n ai cell count = some ai') : PrunedKB ai' := by
  obtain ⟨ai2, hout, rfl⟩ := add_knowledge_cases h
  have hd2 := outerLoop_disj n _ ai2 (preState_disj hd) hout
  intro s hs c hc
  exact hd2 s (mem_dedupKnowledge s hs) c hc

/-- C4 witness: the pruned-knowledge invariant at the concrete output of
`add_knowledge` on the empty 1×1 engine. -/
theorem add_knowledge_pruned_witness :
    PrunedKB ⟨1, 1, {((0 : ℤ), (0 : ℤ))}, ∅, {((0 : ℤ), (0 : ℤ))}, []⟩ :=
  add_knowledge_pruned ⟨1, 1, ∅, ∅, ∅, []⟩ ((0 : ℤ), (0 : ℤ)) 0 2
    ⟨1, 1, {((0 : ℤ), (0 : ℤ))}, ∅, {((0 : ℤ), (0 : ℤ))}, []⟩
    (by decide) (by decide)

/-- C5: on a consistent engine, `0 ≤ count ≤ |cells|` holds for every
sentence of the knowledge base before the call, after the sentence-building
preamble, after every (fueled) `update_safes_and_mines` pass and every
`generate_inferences` pass started from any consistent knowledge base, and
after `add_knowledge` returns — i.e. at every point before, during and after
the operation. -/
theorem sentence_bounds_invariant (ai : AIState) (cell : Cell) (count : ℤ)
    (M : Finset Cell) (hM : ConsistentAI M ai)
    (hcount : count =
      ((get_nearby_cells ai.height ai.width cell ∩ M).card : ℤ))
    (hcell : cell ∉ M) :
    KBBounds ai ∧ KBBounds (preState ai cell count) ∧
    (∀ n (st : AIState) u st' u', (∀ s ∈ st.knowledge, ConsistentS M s) →
      usmLoop n st u = some (st', u') → KBBounds st') ∧
    (∀ n (st : AIState) g st' g', (∀ s ∈ st.knowledge, ConsistentS M s) →
      giLoop n st g = some (st', g') → KBBounds st') ∧
    (∀ n ai', add_knowledge n ai cell count = some ai' → KBBounds ai') := by
  have hpc : ∀ s ∈ (preState ai cell count).knowledge, ConsistentS M s :=
    (preState_consAI hM hcount hcell).1
  refine ⟨fun s hs => consistentS_bounds (hM.1 s hs),
    fun s hs => consistentS_bounds (hpc s hs), ?_, ?_, ?_⟩
  · intro n st u st' u' hc h s hs
    exact consistentS_bounds (usmLoop_cons n st u st' u' hc h s hs)
  · intro n st g st' g' hc h s hs
    exact consistentS_bounds (giLoop_cons n st g st' g' hc h s hs)
  · intro n ai' h
    obtain ⟨ai2, hout, rfl⟩ := add_knowledge_cases h
    have hc2 := outerLoop_cons n _ ai2 hpc hout
    intro s hs
    exact consistentS_bounds (hc2 s (mem_dedupKnowledge s hs))

/-- C5 witness: the bounds invariant at the concrete consistent engine
(empty 1×1 board, mine assignment `∅`). -/
theorem sentence_bounds_invariant_witness : KBBounds ⟨1, 1, ∅, ∅, ∅, []⟩ :=
  (sentence_bounds_invariant ⟨1, 1, ∅, ∅, ∅, []⟩ ((0 : ℤ), (0 : ℤ)) 0 ∅
    (by decide) (by decide) (by decide)).1

/-- C6: after every `add_knowledge` call on a consistent engine (board
reporting the consistent neighbor count), the engine's `safes` and `mines`
sets are disjoint: every safe-marked cell avoids the mine assignment and
every flagged mine belongs to it, so the two sets cannot intersect. -/
theorem safes_mines_disjoint (ai : AIState) (cell : Cell) (count : ℤ)
    (M : Finset Cell) (hM : ConsistentAI M ai)
    (hcount : count =
      ((get_nearby_cells ai.height ai.width cell ∩ M).card : ℤ))
    (hcell : cell ∉ M) :
    ∀ n ai', add_knowledge n ai cell count = some ai' →
      ai'.safes ∩ ai'.mines = ∅ := by
  intro n ai' h
  obtain ⟨ai2, hout, rfl⟩ := add_knowledge_cases h
  obtain ⟨⟨⟨-, hmines2, hsafes2, -, -⟩, -⟩, -⟩ := outerLoop_spec n
    (preState ai cell count) ai2
    ⟨preState_consAI hM hcount hcell, subset_bigU⟩ hout
  apply Finset.eq_empty_of_forall_not_mem
  intro c hc
  rw [Finset.mem_inter] at hc
  exact hsafes2 c hc.1 (hmines2 hc.2)

/-- C6 witness: `safes ∩ mines = ∅` at the concrete output of
`add_knowledge` on the empty 1×1 engine. -/
theorem safes_mines_disjoint_witness :
    (⟨1, 1, {((0 : ℤ), (0 : ℤ))}, ∅, {((0 : ℤ), (0 : ℤ))}, []⟩ :
        AIState).safes ∩
      (⟨1, 1, {((0 : ℤ), (0 : ℤ))}, ∅, {((0 : ℤ), (0 : ℤ))}, []⟩ :
        AIState).mines = ∅ :=
  safes_mines_disjoint ⟨1, 1, ∅, ∅, ∅, []⟩ ((0 : ℤ), (0 : ℤ)) 0 ∅
    (by decide) (by decide) (by decide) 2
    ⟨1, 1, {((0 : ℤ), (0 : ℤ))}, ∅, {((0 : ℤ), (0 : ℤ))}, []⟩ (by decide)

/-- C9 amended: `add_knowledge` performs no repeated-cell check and has no
error path: a cell already in `moves_made` is processed as ordinary input,
and (on a consistent engine) the call completes normally, with the cell still
recorded in `moves_made`. -/
theorem repeated_cell_amended (ai : AIState) (cell : Cell) (count : ℤ)
    (M : Finset Cell) (hmem : cell ∈ ai.moves_made)
    (hM : ConsistentAI M ai)
    (hcount : count =
      ((get_nearby_cells ai.height ai.width cell ∩ M).card : ℤ)) :
    ∃ n ai', add_knowledge n ai cell count = some ai' ∧
      cell ∈ ai'.moves_made := by
  have hcell : cell ∉ M := hM.2.2.2.1 cell hmem
  obtain ⟨n, ai2, hout⟩ := outerLoop_term (M := M)
    (U := bigU (preState ai cell count))
    (omeasure (bigU (preState ai cell count)) (preState ai cell count))
    (preState ai cell count) (le_refl _)
    ⟨preState_consAI hM hcount hcell, subset_bigU⟩
  refine ⟨n, { ai2 with knowledge := dedupKnowledge ai2.knowledge },
    add_knowledge_build hout, ?_⟩
  have hm := (outerLoop_fields n (preState ai cell count) ai2 hout).1
  show cell ∈ ai2.moves_made
  rw [hm, preState_moves]
  exact Finset.mem_insert_self cell ai.moves_made

/-- C9 amended witness: the concrete repeated call on a 1×1 engine that has
already probed `(0,0)`. -/
theorem repeated_cell_amended_witness :
    ∃ n ai', add_knowledge n
        ⟨1, 1, {((0 : ℤ), (0 : ℤ))}, ∅, {((0 : ℤ), (0 : ℤ))}, []⟩
        ((0 : ℤ), (0 : ℤ)) 0 = some ai' ∧
      ((0 : ℤ), (0 : ℤ)) ∈ ai'.moves_made :=
  repeated_cell_amended
    ⟨1, 1, {((0 : ℤ), (0 : ℤ))}, ∅, {((0 : ℤ), (0 : ℤ))}, []⟩
    ((0 : ℤ), (0 : ℤ)) 0 ∅ (by decide) (by decide) (by decide)

end Minesweeper
